import Mathlib

/-!
# Verification of the gocognigo document retrieval engine

Shallow embedding of the core of the `gocognigo` repository (Go): the
page chunker (`internal/indexer/indexer.go`, `ChunkPages`), the hybrid
retriever (`internal/retriever/retriever.go`, `Search`), the PDF/DOCX
extractors (`internal/extractor/pdf.go`, `ExtractDOCX`), the vector-store
persistence (`SaveVectors`/`LoadVectors`), the index LRU cache
(`cmd/server/handlers_conv.go`, `lruCache`) and the ingestion
termination logic (`runIngestion`).

Modelling conventions:
* Go strings are modelled as Lean `String` (sequences of characters);
  byte-level UTF-8 details are below the abstraction level used here.
* Go `int` values that are always non-negative in the program (page
  numbers, ranks, counters) are modelled as `Nat`; section page carriers
  coming from LLM output keep `Int`.
* Go `float64` scores are modelled as exact rationals `ℚ` (the RRF
  scores `1/(60+rank)` and their comparisons).
* `[]float32` embeddings are modelled as `List ℚ`.
* External collaborators (the bleve BM25 index, the OCR subprocess, the
  PDF parser, the gob/JSON codecs) enter as parameters/oracles, exactly
  at the syscall/library boundary of the Go code.
-/

set_option maxHeartbeats 1000000

namespace GoCogni

/-! ## Whitespace, fields, join — Go `strings` package model -/

/-- Go `unicode.IsSpace`: the whitespace class used by `strings.Fields`
and `strings.TrimSpace`. -/
def isSpaceChar (c : Char) : Bool :=
  c.toNat == 32 || c.toNat == 9 || c.toNat == 10 || c.toNat == 11 || c.toNat == 12 ||
  c.toNat == 13 || c.toNat == 0x85 || c.toNat == 0xA0 || c.toNat == 0x1680 ||
  (0x2000 ≤ c.toNat && c.toNat ≤ 0x200A) ||
  c.toNat == 0x2028 || c.toNat == 0x2029 || c.toNat == 0x202F ||
  c.toNat == 0x205F || c.toNat == 0x3000

/-- Character-list core of Go `strings.Fields`: split around maximal runs
of whitespace. -/
def fieldsCh : List Char → List (List Char)
  | [] => []
  | c :: rest =>
    if isSpaceChar c then fieldsCh rest
    else (c :: rest.takeWhile (fun d => !isSpaceChar d)) ::
      fieldsCh (rest.dropWhile (fun d => !isSpaceChar d))
termination_by l => l.length
decreasing_by
  · simp only [List.length_cons]; omega
  · simp only [List.length_cons]
    have := (List.dropWhile_sublist (l := rest) (fun d => !isSpaceChar d)).length_le
    omega

/-- Go `strings.Fields`. -/
def fields (s : String) : List String :=
  (fieldsCh s.data).map (fun w => ⟨w⟩)

/-- Character-list core of Go `strings.Join(ws, " ")`. -/
def joinWordsCh : List (List Char) → List Char
  | [] => []
  | [w] => w
  | w :: ws => w ++ ' ' :: joinWordsCh ws

/-- Go `strings.Join(ws, " ")`. -/
def joinWords (ws : List String) : String :=
  ⟨joinWordsCh (ws.map String.data)⟩

/-- Character-list core of Go `strings.TrimSpace`. -/
def trimCh (l : List Char) : List Char :=
  ((l.dropWhile isSpaceChar).reverse.dropWhile isSpaceChar).reverse

/-- Go `strings.TrimSpace`. -/
def trimSpace (s : String) : String := ⟨trimCh s.data⟩

/-! ## Data model (`internal/extractor`, `internal/indexer`) -/

/-- `extractor.DocumentChunk`: one extracted page of a document. -/
structure DocumentChunk where
  pageNumber : Nat
  text : String
  document : String
deriving DecidableEq, Repr

/-- `indexer.Section` (section of a document summary; page bounds are
LLM-produced and kept as `Int`). -/
structure DocSection where
  name : String
  pageStart : Int
  pageEnd : Int
deriving DecidableEq, Repr

/-- `indexer.DocumentSummary`. -/
structure DocumentSummary where
  document : String
  title : String
  docType : String
  summary : String
  sections : List DocSection
  keyEntities : List String
deriving DecidableEq, Repr

/-- `indexer.Chunk`. The Go field `Section` is called `sectionName` here
(`section` is a Lean keyword). -/
structure Chunk where
  id : String
  document : String
  pageNumber : Nat
  text : String
  parentText : String
  sectionName : String
  embedding : List ℚ
deriving DecidableEq, Repr

/-! ## Section lookup (`sectionLookup.lookup` in indexer.go) -/

/-- Inner loop of `sectionLookup.lookup`: first section of one summary
whose `[PageStart, PageEnd]` range covers the page. -/
def findSectionName (secs : List DocSection) (page : Nat) : Option String :=
  match secs with
  | [] => none
  | sec :: rest =>
    if sec.pageStart ≤ (page : Int) ∧ (page : Int) ≤ sec.pageEnd then some sec.name
    else findSectionName rest page

/-- `sectionLookup.lookup doc page`: scan summaries in order; skip
summaries of other documents; return the first covering section name,
else the empty string. -/
def sectionLookup (summaries : List DocumentSummary) (doc : String) (page : Nat) : String :=
  match summaries with
  | [] => ""
  | s :: rest =>
    if s.document = doc then
      match findSectionName s.sections page with
      | some n => n
      | none => sectionLookup rest doc page
    else sectionLookup rest doc page

/-! ## Chunker (`Index.ChunkPages` in indexer.go) -/

/-- `chunkSize := 150` in `ChunkPages`. -/
def chunkSize : Nat := 150

/-- `overlap := 30` in `ChunkPages`. -/
def overlap : Nat := 30

/-- Chunk identity: `fmt.Sprintf("%s_p%d_c%d", document, page, index)`. -/
def chunkId (doc : String) (page : Nat) (idx : Nat) : String :=
  doc ++ "_p" ++ Nat.repr page ++ "_c" ++ Nat.repr idx

/-- The word windows emitted by the inner loop of `ChunkPages`, starting
at word offset `i`: windows of `chunkSize` words stepping by
`chunkSize - overlap`; the loop breaks after the window that reaches the
end of the word list. -/
def windowsFrom (words : List String) (i : Nat) : List (List String) :=
  if _h : i < words.length then
    if words.length ≤ i + chunkSize then [(words.drop i).take chunkSize]
    else (words.drop i).take chunkSize :: windowsFrom words (i + (chunkSize - overlap))
  else []
termination_by words.length - i
decreasing_by simp only [chunkSize, overlap] at *; omega

/-- All word windows of one page. -/
def chunkWindows (words : List String) : List (List String) := windowsFrom words 0

/-- The chunk record built for one window (`indexChunks = append(...)` body
of `ChunkPages`); `idx` is `len(indexChunks)` at append time. The Go zero
value `nil` of the `Embedding` field is the empty list. -/
def mkChunk (doc : String) (page : Nat) (parent : String) (sec : String)
    (idx : Nat) (w : List String) : Chunk :=
  { id := chunkId doc page idx
    document := doc
    pageNumber := page
    text := joinWords w
    parentText := parent
    sectionName := sec
    embedding := [] }

/-- The inner window loop of `ChunkPages` for one page, threading the
accumulated output list `acc` (whose length is the Go `len(indexChunks)`
used for chunk ids). -/
def appendPageChunks (doc : String) (page : Nat) (parent : String) (sec : String)
    (words : List String) (i : Nat) (acc : List Chunk) : List Chunk :=
  if _h : i < words.length then
    let c := mkChunk doc page parent sec acc.length ((words.drop i).take chunkSize)
    if words.length ≤ i + chunkSize then acc ++ [c]
    else appendPageChunks doc page parent sec words (i + (chunkSize - overlap)) (acc ++ [c])
  else acc
termination_by words.length - i
decreasing_by simp only [chunkSize, overlap] at *; omega

/-- The page loop of `ChunkPages`. -/
def chunkPagesAux (summaries : List DocumentSummary) :
    List DocumentChunk → List Chunk → List Chunk
  | [], acc => acc
  | p :: rest, acc =>
    chunkPagesAux summaries rest
      (appendPageChunks p.document p.pageNumber p.text
        (sectionLookup summaries p.document p.pageNumber) (fields p.text) 0 acc)

/-- `Index.ChunkPages`: split extracted pages into ~150-word search chunks.
The summaries are the index's `DocSummaries` (used only for section
lookup). -/
def chunkPages (summaries : List DocumentSummary) (pages : List DocumentChunk) : List Chunk :=
  chunkPagesAux summaries pages []

/-- The chunk list contributed by one ingestion run, in file order: the
run calls `ChunkPages` once per successfully extracted file
(`runIngestion`, `fileChunks := idx.ChunkPages(docChunks)`). -/
def runChunks (summaries : List DocumentSummary) (files : List (List DocumentChunk)) :
    List Chunk :=
  (files.map (chunkPages summaries)).flatten

/-! ## Chunker lemmas -/

/-- Map with an explicit running index (used to state where each emitted
chunk sits in the accumulated output list). -/
def mapIdx (f : Nat → α → β) : Nat → List α → List β
  | _, [] => []
  | n, a :: l => f n a :: mapIdx f (n + 1) l

theorem mapIdx_length (f : Nat → α → β) : ∀ n l, (mapIdx f n l).length = l.length
  | _, [] => rfl
  | n, _ :: l => by simp [mapIdx, mapIdx_length f (n + 1) l]

theorem mapIdx_getElem? (f : Nat → α → β) :
    ∀ (n : Nat) (l : List α) (j : Nat), (mapIdx f n l)[j]? = (l[j]?).map (f (n + j))
  | _, [], j => by simp [mapIdx]
  | n, a :: l, 0 => by simp [mapIdx]
  | n, a :: l, j + 1 => by
    simp only [mapIdx, List.getElem?_cons_succ]
    rw [mapIdx_getElem? f (n + 1) l j]
    have : n + 1 + j = n + (j + 1) := by omega
    rw [this]

theorem mapIdx_append (f : Nat → α → β) :
    ∀ (n : Nat) (l₁ l₂ : List α),
      mapIdx f n (l₁ ++ l₂) = mapIdx f n l₁ ++ mapIdx f (n + l₁.length) l₂
  | _, [], _ => by simp [mapIdx]
  | n, a :: l₁, l₂ => by
    simp only [List.cons_append, mapIdx, List.length_cons, List.append_eq]
    rw [mapIdx_append f (n + 1) l₁ l₂]
    have : n + 1 + l₁.length = n + (l₁.length + 1) := by omega
    rw [this]

/-- Length of the window list emitted for one page starting at offset
`i`. -/
theorem windowsFrom_length : ∀ (fuel : Nat) (words : List String) (i : Nat),
    words.length - i ≤ fuel →
    (windowsFrom words i).length =
      if i < words.length then (words.length - i - 31) / 120 + 1 else 0
  | 0, words, i, h => by
    have hni : ¬ i < words.length := by omega
    rw [windowsFrom]
    simp [hni]
  | fuel + 1, words, i, h => by
    rw [windowsFrom]
    by_cases h1 : i < words.length
    · by_cases h2 : words.length ≤ i + chunkSize
      · rw [dif_pos h1, if_pos h2, if_pos h1]
        simp only [List.length_singleton]
        simp only [chunkSize] at h2
        omega
      · rw [dif_pos h1, if_neg h2, if_pos h1]
        simp only [List.length_cons]
        rw [windowsFrom_length fuel words (i + (chunkSize - overlap))
          (by simp only [chunkSize, overlap]; omega)]
        simp only [chunkSize, overlap] at h2 ⊢
        rw [if_pos (show i + (150 - 30) < words.length by omega)]
        omega
    · simp [h1]

/-- Closed form of the window list: the `j`-th window starts `120·j`
words after offset `i` and takes 150 words. -/
theorem windowsFrom_closed : ∀ (fuel : Nat) (words : List String) (i : Nat),
    words.length - i ≤ fuel →
    windowsFrom words i =
      (List.range (windowsFrom words i).length).map
        (fun j => (words.drop (i + 120 * j)).take 150)
  | 0, words, i, h => by
    have hni : ¬ i < words.length := by omega
    rw [windowsFrom]
    simp [hni]
  | fuel + 1, words, i, h => by
    rw [windowsFrom]
    by_cases h1 : i < words.length
    · by_cases h2 : words.length ≤ i + chunkSize
      · rw [dif_pos h1, if_pos h2]
        simp [chunkSize, List.range_succ]
      · rw [dif_pos h1, if_neg h2]
        have hrec := windowsFrom_closed fuel words (i + (chunkSize - overlap))
          (by simp only [chunkSize, overlap]; omega)
        rw [List.length_cons, List.range_succ_eq_map, List.map_cons, List.map_map]
        simp only [chunkSize, overlap] at hrec ⊢
        refine congrArg₂ (fun (x : List String) l => x :: l) (by simp) ?_
        conv_lhs => rw [hrec]
        refine congrArg₂ _ (funext fun j => ?_) rfl
        simp only [Function.comp_apply, Nat.succ_eq_add_one]
        have : i + (150 - 30) + 120 * j = i + 120 * (j + 1) := by omega
        rw [this]
    · simp [h1]

/-- `appendPageChunks` appends exactly the chunks built from the window
list, with ids carrying the running position in the output list. -/
theorem appendPageChunks_eq :
    ∀ (fuel : Nat) (doc : String) (page : Nat) (parent sec : String)
      (words : List String) (i : Nat) (acc : List Chunk),
    words.length - i ≤ fuel →
    appendPageChunks doc page parent sec words i acc =
      acc ++ mapIdx (fun j w => mkChunk doc page parent sec j w) acc.length
        (windowsFrom words i)
  | 0, doc, page, parent, sec, words, i, acc, h => by
    have hni : ¬ i < words.length := by omega
    rw [appendPageChunks, windowsFrom]
    simp [hni, mapIdx]
  | fuel + 1, doc, page, parent, sec, words, i, acc, h => by
    rw [appendPageChunks, windowsFrom]
    by_cases h1 : i < words.length
    · by_cases h2 : words.length ≤ i + chunkSize
      · simp [h1, h2, mapIdx]
      · simp only [h1, dif_pos, h2, if_neg, not_false_iff]
        rw [appendPageChunks_eq fuel doc page parent sec words (i + (chunkSize - overlap))
          (acc ++ [mkChunk doc page parent sec acc.length ((words.drop i).take chunkSize)])
          (by simp only [chunkSize, overlap]; omega)]
        simp [mapIdx]
    · simp [h1, mapIdx]

/-- The chunks contributed by a single page record, when `offset` chunks
have already been emitted before it. -/
def pageBlock (summaries : List DocumentSummary) (p : DocumentChunk) (offset : Nat) :
    List Chunk :=
  mapIdx
    (fun j w =>
      mkChunk p.document p.pageNumber p.text
        (sectionLookup summaries p.document p.pageNumber) j w)
    offset (chunkWindows (fields p.text))

/-- One step of the page loop: processing page `p` appends exactly its
`pageBlock` at the current output length. -/
theorem chunkPagesAux_cons (summaries : List DocumentSummary) (p : DocumentChunk)
    (rest : List DocumentChunk) (acc : List Chunk) :
    chunkPagesAux summaries (p :: rest) acc =
      chunkPagesAux summaries rest (acc ++ pageBlock summaries p acc.length) := by
  rw [chunkPagesAux, appendPageChunks_eq ((fields p.text).length) p.document p.pageNumber p.text
    (sectionLookup summaries p.document p.pageNumber) (fields p.text) 0 acc (by omega)]
  rfl

theorem pageBlock_length (summaries : List DocumentSummary) (p : DocumentChunk)
    (offset : Nat) :
    (pageBlock summaries p offset).length = (chunkWindows (fields p.text)).length := by
  simp [pageBlock, mapIdx_length]

/-- Structural specification of `chunkPages`: its output extends the
accumulator; the chunk at position `j` records the id built from the
running counter, and its fields are carved from one of the input pages. -/
theorem chunkPagesAux_spec (summaries : List DocumentSummary) :
    ∀ (pages : List DocumentChunk) (acc : List Chunk),
      ∃ rest, chunkPagesAux summaries pages acc = acc ++ rest ∧
        ∀ j c, rest[j]? = some c →
          c.id = chunkId c.document c.pageNumber (acc.length + j) ∧
          ∃ p ∈ pages, c.document = p.document ∧ c.pageNumber = p.pageNumber ∧
            c.parentText = p.text ∧
            c.sectionName = sectionLookup summaries p.document p.pageNumber ∧
            c.embedding = [] ∧
            ∃ k, c.text = joinWords (((fields p.text).drop k).take 150)
  | [], acc => by
    refine ⟨[], by simp [chunkPagesAux], ?_⟩
    intro j c h
    simp at h
  | p :: pages, acc => by
    rw [chunkPagesAux_cons]
    obtain ⟨rest', heq, hspec⟩ :=
      chunkPagesAux_spec summaries pages (acc ++ pageBlock summaries p acc.length)
    refine ⟨pageBlock summaries p acc.length ++ rest', by rw [heq, List.append_assoc], ?_⟩
    intro j c h
    by_cases hj : j < (pageBlock summaries p acc.length).length
    · rw [List.getElem?_append_left hj] at h
      unfold pageBlock at h
      rw [mapIdx_getElem?] at h
      rw [chunkWindows, windowsFrom_closed ((fields p.text).length) (fields p.text) 0
        (by omega)] at h
      rw [List.getElem?_map] at h
      rw [pageBlock_length, chunkWindows] at hj
      rw [List.getElem?_range hj] at h
      simp only [Option.map_some', Option.some.injEq] at h
      subst h
      refine ⟨rfl, p, List.mem_cons_self _ _, rfl, rfl, rfl, rfl, rfl, 120 * j, ?_⟩
      simp [mkChunk]
    · rw [List.getElem?_append_right (by omega)] at h
      obtain ⟨hid, q, hq, hrest⟩ := hspec (j - (pageBlock summaries p acc.length).length) c h
      refine ⟨?_, q, List.mem_cons_of_mem _ hq, hrest⟩
      rw [hid]
      have : (acc ++ pageBlock summaries p acc.length).length +
          (j - (pageBlock summaries p acc.length).length) = acc.length + j := by
        rw [List.length_append]; omega
      rw [this]

/-- The chunk at position `j` of a `ChunkPages` call carries id
`<document>_p<page>_c<j>` and is carved from one of the input pages. -/
theorem chunkPages_spec (summaries : List DocumentSummary) (pages : List DocumentChunk)
    (j : Nat) (c : Chunk) (h : (chunkPages summaries pages)[j]? = some c) :
    c.id = chunkId c.document c.pageNumber j ∧
    ∃ p ∈ pages, c.document = p.document ∧ c.pageNumber = p.pageNumber ∧
      c.parentText = p.text ∧ ∃ k, c.text = joinWords (((fields p.text).drop k).take 150) := by
  obtain ⟨rest, heq, hspec⟩ := chunkPagesAux_spec summaries pages []
  rw [chunkPages, heq, List.nil_append] at h
  obtain ⟨hid, p, hp, h1, h2, h3, _, _, hk⟩ := hspec j c h
  exact ⟨by simpa using hid, p, hp, h1, h2, h3, hk⟩

/-- Ceiling of a rational `a / 120` as natural division. -/
theorem ceil_div_120 (a : Nat) (ha : 1 ≤ a) :
    ⌈(a : ℚ) / 120⌉₊ = (a + 119) / 120 := by
  obtain ⟨q', hq⟩ : ∃ q', (a + 119) / 120 = q' + 1 := ⟨(a + 119) / 120 - 1, by omega⟩
  have hq1 : a ≤ 120 * (q' + 1) := by omega
  have hq2 : 120 * q' < a := by omega
  rw [hq, Nat.ceil_eq_iff (by omega)]
  refine ⟨?_, ?_⟩
  · simp only [Nat.add_sub_cancel]
    rw [lt_div_iff₀ (by norm_num : (0:ℚ) < 120)]
    exact_mod_cast by exact_mod_cast (by omega : q' * 120 < a)
  · rw [div_le_iff₀ (by norm_num : (0:ℚ) < 120)]
    exact_mod_cast (by omega : a ≤ (q' + 1) * 120)

theorem mapIdx_map_text (d : String) (pg : Nat) (par sec : String) :
    ∀ (n : Nat) (l : List (List String)),
      (mapIdx (fun j w => mkChunk d pg par sec j w) n l).map Chunk.text = l.map joinWords
  | _, [] => rfl
  | n, w :: l => by
    rw [mapIdx, List.map_cons, mapIdx_map_text d pg par sec (n + 1) l]
    rfl

/-- **C3.** For every page record given to the chunker
(chunk_size = 150, overlap = 30, step = 120), writing `W` for the number
of whitespace-split words of the page: the page emits 0 chunks when
`W = 0`, exactly 1 chunk when `0 < W < 150`, and `max 1 ⌈(W−30)/120⌉`
chunks when `W ≥ 150`; the `j`-th chunk text is the space-join of the 150
consecutive words starting at word `120·j` (so consecutive windows start
120 words apart), and every window except possibly the last has exactly
150 words.  The final conjuncts place the page's block inside a
multi-page `ChunkPages` call. -/
theorem c3_chunk_windowing (summaries : List DocumentSummary) (p : DocumentChunk)
    (W : Nat) (hW : W = (fields p.text).length) :
    (W = 0 → chunkPages summaries [p] = []) ∧
    (0 < W → W < 150 → (chunkPages summaries [p]).length = 1) ∧
    (150 ≤ W → (chunkPages summaries [p]).length = max 1 ⌈((W : ℚ) - 30) / 120⌉₊) ∧
    ((chunkPages summaries [p]).map Chunk.text =
      (List.range (chunkPages summaries [p]).length).map
        (fun j => joinWords (((fields p.text).drop (120 * j)).take 150))) ∧
    (∀ j w, j + 1 < (chunkWindows (fields p.text)).length →
      (chunkWindows (fields p.text))[j]? = some w → w.length = 150) ∧
    (∀ (rest : List DocumentChunk) (acc : List Chunk),
      chunkPagesAux summaries (p :: rest) acc =
        chunkPagesAux summaries rest (acc ++ pageBlock summaries p acc.length)) ∧
    (∀ offset, (pageBlock summaries p offset).length = (chunkPages summaries [p]).length) := by
  have hpb : chunkPages summaries [p] = pageBlock summaries p 0 := by
    rw [chunkPages, chunkPagesAux_cons]
    rfl
  have hwl : (chunkWindows (fields p.text)).length =
      if 0 < W then (W - 31) / 120 + 1 else 0 := by
    rw [chunkWindows,
      windowsFrom_length ((fields p.text).length) (fields p.text) 0 (by omega), ← hW]
    simp only [Nat.sub_zero]
  have hlen : (chunkPages summaries [p]).length = (chunkWindows (fields p.text)).length := by
    rw [hpb, pageBlock_length]
  refine ⟨?_, ?_, ?_, ?_, ?_, ?_, ?_⟩
  · intro h0
    rw [hpb]
    refine List.length_eq_zero.mp ?_
    rw [pageBlock_length, hwl]
    simp [h0]
  · intro h1 h2
    rw [hlen, hwl, if_pos h1]
    omega
  · intro h3
    rw [hlen, hwl, if_pos (by omega)]
    have hcast : ((W : ℚ) - 30) = ((W - 30 : ℕ) : ℚ) := by
      rw [Nat.cast_sub (by omega : 30 ≤ W)]
      norm_num
    rw [hcast, ceil_div_120 (W - 30) (by omega),
      Nat.max_eq_right (by omega : 1 ≤ (W - 30 + 119) / 120)]
    omega
  · rw [hpb]
    unfold pageBlock
    rw [mapIdx_map_text]
    conv_lhs => rw [chunkWindows,
      windowsFrom_closed ((fields p.text).length) (fields p.text) 0 (by omega)]
    rw [List.map_map, mapIdx_length, chunkWindows]
    refine congrArg₂ _ (funext fun j => ?_) rfl
    simp
  · intro j w hj hw
    have hj' : j < (windowsFrom (fields p.text) 0).length := by
      rw [chunkWindows] at hj
      omega
    rw [chunkWindows,
      windowsFrom_closed ((fields p.text).length) (fields p.text) 0 (by omega),
      List.getElem?_map, List.getElem?_range hj'] at hw
    simp only [Option.map_some', Option.some.injEq] at hw
    subst hw
    rw [List.length_take, List.length_drop]
    rw [hwl] at hj
    by_cases h1 : 0 < W
    · rw [if_pos h1] at hj
      rw [← hW]
      omega
    · rw [if_neg h1] at hj
      omega
  · intro rest acc
    exact chunkPagesAux_cons summaries p rest acc
  · intro offset
    rw [pageBlock_length, hlen]

/-- **C3 witness.** The chunk-count formula instantiated on a concrete
two-word page: one chunk is emitted. -/
theorem c3_chunk_windowing_witness :
    (chunkPages [] [⟨1, "hello world", "d.pdf"⟩]).length = 1 :=
  ((c3_chunk_windowing [] ⟨1, "hello world", "d.pdf"⟩ 2
    (by simp [fields, fieldsCh, isSpaceChar])).2.1) (by omega) (by omega)

/-! ## Injectivity of decimal rendering and of chunk ids -/

/-- Numeric value of a decimal digit character. -/
def digitVal (c : Char) : Nat := c.toNat - 48

/-- Left-to-right decimal parse with accumulator. -/
def parseFrom (v : Nat) : List Char → Nat
  | [] => v
  | c :: cs => parseFrom (v * 10 + digitVal c) cs

theorem digitVal_digitChar (d : Nat) (h : d < 10) : digitVal (Nat.digitChar d) = d := by
  interval_cases d <;> rfl

theorem digitChar_isDigit (d : Nat) (h : d < 10) : (Nat.digitChar d).isDigit = true := by
  interval_cases d <;> rfl

theorem parseFrom_cons (v : Nat) (c : Char) (cs : List Char) :
    parseFrom v (c :: cs) = parseFrom (v * 10 + digitVal c) cs := rfl

theorem toDigitsCore_succ (f n : Nat) (acc : List Char) :
    Nat.toDigitsCore 10 (f + 1) n acc =
      if n / 10 = 0 then Nat.digitChar (n % 10) :: acc
      else Nat.toDigitsCore 10 f (n / 10) (Nat.digitChar (n % 10) :: acc) := rfl

theorem toDigitsCore_parse :
    ∀ (f n : Nat) (acc : List Char), n < 10 ^ f →
      parseFrom 0 (Nat.toDigitsCore 10 f n acc) = parseFrom n acc
  | 0, n, acc, h => by
    have : n = 0 := by simpa using h
    subst this
    rfl
  | f + 1, n, acc, h => by
    rw [toDigitsCore_succ]
    by_cases h0 : n / 10 = 0
    · rw [if_pos h0, parseFrom_cons]
      rw [digitVal_digitChar (n % 10) (by omega)]
      have : 0 * 10 + n % 10 = n := by omega
      rw [this]
    · rw [if_neg h0]
      rw [toDigitsCore_parse f (n / 10) (Nat.digitChar (n % 10) :: acc)
        (by rw [pow_succ] at h; omega)]
      rw [parseFrom_cons, digitVal_digitChar (n % 10) (by omega)]
      have : n / 10 * 10 + n % 10 = n := by omega
      rw [this]

theorem toDigits_parse (n : Nat) : parseFrom 0 (Nat.toDigits 10 n) = n := by
  rw [Nat.toDigits, toDigitsCore_parse (n + 1) n []]
  · rfl
  · calc n < 10 ^ n := Nat.lt_pow_self (by norm_num) n
    _ ≤ 10 ^ (n + 1) := Nat.pow_le_pow_right (by norm_num) (by omega)

theorem natRepr_inj {m n : Nat} (h : Nat.repr m = Nat.repr n) : m = n := by
  have hd : Nat.toDigits 10 m = Nat.toDigits 10 n := by
    have := congrArg String.data h
    simpa [Nat.repr, List.asString] using this
  calc m = parseFrom 0 (Nat.toDigits 10 m) := (toDigits_parse m).symm
  _ = parseFrom 0 (Nat.toDigits 10 n) := by rw [hd]
  _ = n := toDigits_parse n

theorem toDigitsCore_digits :
    ∀ (f n : Nat) (acc : List Char), (∀ c ∈ acc, c.isDigit = true) →
      ∀ c ∈ Nat.toDigitsCore 10 f n acc, c.isDigit = true
  | 0, n, acc, hacc => hacc
  | f + 1, n, acc, hacc => by
    rw [toDigitsCore_succ]
    by_cases h0 : n / 10 = 0
    · rw [if_pos h0]
      intro c hc
      rcases List.mem_cons.mp hc with rfl | hc
      · exact digitChar_isDigit (n % 10) (by omega)
      · exact hacc c hc
    · rw [if_neg h0]
      refine toDigitsCore_digits f (n / 10) (Nat.digitChar (n % 10) :: acc) ?_
      intro c hc
      rcases List.mem_cons.mp hc with rfl | hc
      · exact digitChar_isDigit (n % 10) (by omega)
      · exact hacc c hc

theorem repr_digits (n : Nat) : ∀ c ∈ (Nat.repr n).data, c.isDigit = true := by
  intro c hc
  exact toDigitsCore_digits (n + 1) n [] (by simp) c hc

/-- Two equal lists that each start with a run of decimal digits followed
by a non-digit split identically. -/
theorem digits_prepend_cancel :
    ∀ (a b x y : List Char),
      (∀ c ∈ a, c.isDigit = true) → (∀ c ∈ b, c.isDigit = true) →
      (∀ c, x.head? = some c → c.isDigit = false) →
      (∀ c, y.head? = some c → c.isDigit = false) →
      a ++ x = b ++ y → a = b ∧ x = y := by
  intro a
  induction a with
  | nil =>
    intro b x y _ hb hx _ h
    cases b with
    | nil => exact ⟨rfl, h⟩
    | cons c b' =>
      exfalso
      rw [List.nil_append] at h
      have h1 := hx c (by rw [h]; rfl)
      have h2 := hb c (List.mem_cons_self _ _)
      rw [h1] at h2
      exact Bool.false_ne_true h2
  | cons c a' ih =>
    intro b x y ha hb hx hy h
    cases b with
    | nil =>
      exfalso
      rw [List.nil_append] at h
      have h1 := hy c (by rw [← h]; rfl)
      have h2 := ha c (List.mem_cons_self _ _)
      rw [h1] at h2
      exact Bool.false_ne_true h2
    | cons d b' =>
      simp only [List.cons_append, List.cons.injEq] at h
      obtain ⟨rfl, h2⟩ := h
      obtain ⟨h3, h4⟩ := ih b' x y (fun e he => ha e (List.mem_cons_of_mem _ he))
        (fun e he => hb e (List.mem_cons_of_mem _ he)) hx hy h2
      exact ⟨by rw [h3], h4⟩

theorem repr_rev_digits (n : Nat) : ∀ c ∈ (Nat.repr n).data.reverse, c.isDigit = true := by
  intro c hc
  exact repr_digits n c (List.mem_reverse.mp hc)

/-- Chunk identities are injective in `(document, page, index)`: the
digit runs rendered by `%d` cannot absorb the `_p`/`_c` separators. -/
theorem chunkId_inj {d₁ d₂ : String} {p₁ p₂ i₁ i₂ : Nat}
    (h : chunkId d₁ p₁ i₁ = chunkId d₂ p₂ i₂) : d₁ = d₂ ∧ p₁ = p₂ ∧ i₁ = i₂ := by
  have hdata := congrArg (fun s => s.data.reverse) h
  simp only [chunkId, String.data_append, List.reverse_append] at hdata
  simp only [List.reverse_cons, List.reverse_nil, List.nil_append, List.cons_append,
    List.append_assoc] at hdata
  obtain ⟨hi, hrest⟩ := digits_prepend_cancel _ _ _ _ (repr_rev_digits i₁)
    (repr_rev_digits i₂)
    (fun c hc => by
      simp only [List.head?_cons, Option.some.injEq] at hc
      subst hc; rfl)
    (fun c hc => by
      simp only [List.head?_cons, Option.some.injEq] at hc
      subst hc; rfl) hdata
  have hieq : i₁ = i₂ := by
    refine natRepr_inj (String.ext ?_)
    have := congrArg List.reverse hi
    simpa using this
  simp only [List.cons.injEq, true_and] at hrest
  obtain ⟨hq, hrest2⟩ := digits_prepend_cancel _ _ _ _ (repr_rev_digits p₁)
    (repr_rev_digits p₂)
    (fun c hc => by
      simp only [List.head?_cons, Option.some.injEq] at hc
      subst hc; rfl)
    (fun c hc => by
      simp only [List.head?_cons, Option.some.injEq] at hc
      subst hc; rfl) hrest
  have hpeq : p₁ = p₂ := by
    refine natRepr_inj (String.ext ?_)
    have := congrArg List.reverse hq
    simpa using this
  simp only [List.cons.injEq, true_and] at hrest2
  have hdeq : d₁ = d₂ := by
    refine String.ext ?_
    have := congrArg List.reverse hrest2
    simpa using this
  exact ⟨hdeq, hpeq, hieq⟩

/-! ## C2: chunk identity -/

/-- **C2 counterexample.** In an ingestion run over two one-page,
one-word documents, the run's overall output list (file blocks in run
order, `runChunks`) has at position 1 a chunk whose id carries counter 0
— the `len(indexChunks)` counter restarts in each per-file `ChunkPages`
call — and not the run-wide position 1 required by the claim. -/
theorem c2_global_index_counterexample :
    (runChunks [] [[⟨1, "hello", "a.pdf"⟩], [⟨1, "world", "b.pdf"⟩]]).map Chunk.id =
      [chunkId "a.pdf" 1 0, chunkId "b.pdf" 1 0] ∧
    chunkId "b.pdf" 1 0 ≠ chunkId "b.pdf" 1 1 := by
  constructor
  · simp [runChunks, chunkPages, chunkPagesAux, appendPageChunks, fields, fieldsCh,
      isSpaceChar, mkChunk, sectionLookup, chunkSize]
  · intro h
    obtain ⟨-, -, h01⟩ := chunkId_inj h
    omega

/-- **C2 (amended).** Every chunk produced by a `ChunkPages` call has id
`<document>_p<page>_c<j>` where `j` is the chunk's 0-based position in
the output list of that call — the per-file chunk list, since the
ingestion run invokes `ChunkPages` once per file — and, provided the
run's files carry pairwise-distinct document names, all chunk ids of the
run are pairwise distinct (the number of distinct ids equals the number
of chunks). -/
theorem c2_chunk_ids_amended (summaries : List DocumentSummary)
    (files : List (List DocumentChunk))
    (hdist : files.Pairwise (fun f g => ∀ p ∈ f, ∀ q ∈ g, p.document ≠ q.document)) :
    (∀ (pages : List DocumentChunk) (j : Nat) (c : Chunk),
        (chunkPages summaries pages)[j]? = some c →
        c.id = chunkId c.document c.pageNumber j) ∧
    ((runChunks summaries files).map Chunk.id).Nodup := by
  constructor
  · intro pages j c h
    exact (chunkPages_spec summaries pages j c h).1
  · rw [runChunks, List.map_flatten, List.map_map]
    rw [List.nodup_flatten]
    constructor
    · intro l hl
      obtain ⟨f, hf, rfl⟩ := List.mem_map.mp hl
      rw [List.nodup_iff_injective_getElem]
      rintro ⟨i, hi⟩ ⟨j, hj⟩ hij
      simp only [Function.comp_apply, List.getElem_map] at hij
      have hi' : i < (chunkPages summaries f).length := by
        simpa [Function.comp_apply] using hi
      have hj' : j < (chunkPages summaries f).length := by
        simpa [Function.comp_apply] using hj
      have hci := (chunkPages_spec summaries f i _ (List.getElem?_eq_getElem hi')).1
      have hcj := (chunkPages_spec summaries f j _ (List.getElem?_eq_getElem hj')).1
      rw [hci, hcj] at hij
      obtain ⟨-, -, hije⟩ := chunkId_inj hij
      exact Fin.ext hije
    · rw [List.pairwise_map]
      refine hdist.imp ?_
      intro f g hfg x hx hx'
      simp only [Function.comp_apply] at hx hx'
      obtain ⟨c₁, hc₁, rfl⟩ := List.mem_map.mp hx
      obtain ⟨c₂, hc₂, hid⟩ := List.mem_map.mp hx'
      obtain ⟨i₁, hi₁⟩ := List.getElem?_of_mem hc₁
      obtain ⟨i₂, hi₂⟩ := List.getElem?_of_mem hc₂
      obtain ⟨hcid₁, p₁, hp₁, hd₁, -⟩ := chunkPages_spec summaries f i₁ c₁ hi₁
      obtain ⟨hcid₂, p₂, hp₂, hd₂, -⟩ := chunkPages_spec summaries g i₂ c₂ hi₂
      rw [hcid₁, hcid₂] at hid
      obtain ⟨hdeq, -, -⟩ := chunkId_inj hid.symm
      exact hfg p₁ hp₁ p₂ hp₂ (by rw [← hd₁, ← hd₂, hdeq])

/-- **C2 (amended) witness.** The amended statement applied to the
two-file run of the counterexample. -/
theorem c2_chunk_ids_amended_witness :
    ((runChunks [] [[⟨1, "hello", "a.pdf"⟩], [⟨1, "world", "b.pdf"⟩]]).map Chunk.id).Nodup :=
  (c2_chunk_ids_amended [] [[⟨1, "hello", "a.pdf"⟩], [⟨1, "world", "b.pdf"⟩]]
    (by decide)).2

/-! ## Whitespace collapsing (the normalisation named by the spec's
parent-containment invariant) -/

/-- Collapse every maximal run of whitespace to a single space. -/
def collapseCh : List Char → List Char
  | [] => []
  | [c] => [if isSpaceChar c then ' ' else c]
  | a :: b :: rest =>
    if isSpaceChar a && isSpaceChar b then collapseCh (b :: rest)
    else (if isSpaceChar a then ' ' else a) :: collapseCh (b :: rest)

/-- String-level whitespace collapsing. -/
def collapseWS (s : String) : String := ⟨collapseCh s.data⟩

theorem collapseCh_cons_nonspace {x : Char} (hx : isSpaceChar x = false) (l : List Char) :
    collapseCh (x :: l) = x :: collapseCh l := by
  cases l with
  | nil => simp [collapseCh, hx]
  | cons b t => simp [collapseCh, hx]

theorem collapseCh_append_nonspace :
    ∀ (tw dw : List Char), (∀ c ∈ tw, isSpaceChar c = false) →
      collapseCh (tw ++ dw) = tw ++ collapseCh dw
  | [], dw, _ => rfl
  | x :: tw, dw, h => by
    rw [List.cons_append, collapseCh_cons_nonspace (h x (List.mem_cons_self _ _)),
      collapseCh_append_nonspace tw dw (fun c hc => h c (List.mem_cons_of_mem _ hc))]
    rfl

theorem collapseCh_cons_space :
    ∀ (l : List Char) (c : Char), isSpaceChar c = true →
      collapseCh (c :: l) = ' ' :: collapseCh (l.dropWhile isSpaceChar)
  | [], c, hc => by simp [collapseCh, hc]
  | b :: t, c, hc => by
    by_cases hb : isSpaceChar b = true
    · have h1 : collapseCh (c :: b :: t) = collapseCh (b :: t) := by
        simp [collapseCh, hc, hb]
      rw [h1, collapseCh_cons_space t b hb, List.dropWhile_cons, if_pos hb]
    · have hb' : isSpaceChar b = false := by simpa using hb
      have h1 : collapseCh (c :: b :: t) = ' ' :: collapseCh (b :: t) := by
        simp [collapseCh, hc, hb']
      rw [h1, List.dropWhile_cons, if_neg (by simp [hb'])]

theorem head?_dropWhile_false {p : Char → Bool} :
    ∀ (l : List Char) (c : Char), (l.dropWhile p).head? = some c → p c = false
  | [], c, h => by simp at h
  | x :: t, c, h => by
    rw [List.dropWhile_cons] at h
    by_cases hx : p x = true
    · rw [if_pos hx] at h
      exact head?_dropWhile_false t c h
    · rw [if_neg hx] at h
      simp only [List.head?_cons, Option.some.injEq] at h
      subst h
      simpa using hx

theorem fieldsCh_cons_space {c : Char} (hc : isSpaceChar c = true) (l : List Char) :
    fieldsCh (c :: l) = fieldsCh l := by
  rw [fieldsCh, if_pos hc]

theorem fieldsCh_cons_nonspace {c : Char} (hc : isSpaceChar c = false) (l : List Char) :
    fieldsCh (c :: l) =
      (c :: l.takeWhile (fun d => !isSpaceChar d)) ::
        fieldsCh (l.dropWhile (fun d => !isSpaceChar d)) := by
  rw [fieldsCh, if_neg (by simp [hc])]

theorem fieldsCh_dropWhile :
    ∀ l : List Char, fieldsCh (l.dropWhile isSpaceChar) = fieldsCh l
  | [] => rfl
  | c :: t => by
    rw [List.dropWhile_cons]
    by_cases hc : isSpaceChar c = true
    · rw [if_pos hc, fieldsCh_dropWhile t, fieldsCh_cons_space hc]
    · rw [if_neg hc]

/-- The space-join of a suffix of the word list is a suffix of the
space-join. -/
theorem jw_suffix : ∀ (a m : List (List Char)), joinWordsCh m <:+ joinWordsCh (a ++ m)
  | [], m => List.suffix_refl _
  | x :: a, m => by
    have IH := jw_suffix a m
    cases ha : a ++ m with
    | nil =>
      have hm : m = [] := (List.append_eq_nil.mp ha).2
      subst hm
      exact List.nil_suffix
    | cons y t =>
      have h1 : joinWordsCh ((x :: a) ++ m) = x ++ ' ' :: joinWordsCh (a ++ m) := by
        rw [List.cons_append, ha]
        rfl
      rw [h1]
      obtain ⟨s, hs⟩ := IH
      exact ⟨x ++ ' ' :: s, by simp [List.append_assoc, hs]⟩

/-- The space-join of a prefix of the word list is a prefix of the
space-join. -/
theorem jw_pref : ∀ (m b : List (List Char)), joinWordsCh m <+: joinWordsCh (m ++ b)
  | [], b => List.nil_prefix
  | [w], b => by
    cases b with
    | nil => exact List.prefix_refl _
    | cons y t =>
      have h1 : joinWordsCh ([w] ++ (y :: t)) = w ++ ' ' :: joinWordsCh (y :: t) := rfl
      rw [h1]
      exact ⟨' ' :: joinWordsCh (y :: t), rfl⟩
  | w :: w' :: m, b => by
    have h1 : joinWordsCh (w :: w' :: m) = w ++ ' ' :: joinWordsCh (w' :: m) := rfl
    have h2 : joinWordsCh ((w :: w' :: m) ++ b) =
        w ++ ' ' :: joinWordsCh ((w' :: m) ++ b) := rfl
    rw [h1, h2]
    obtain ⟨s, hs⟩ := jw_pref (w' :: m) b
    exact ⟨s, by simp [List.append_assoc, hs]⟩

/-- The space-join of a contiguous run of the word list is a substring of
the space-join. -/
theorem jw_mid (xs ys : List (List Char)) (h : ys <:+: xs) :
    joinWordsCh ys <:+: joinWordsCh xs := by
  obtain ⟨a, b, rfl⟩ := h
  rw [List.append_assoc]
  exact List.IsInfix.trans (jw_pref ys b).isInfix (jw_suffix a (ys ++ b)).isInfix

/-- Core containment: the space-join of the whitespace-split fields of a
character list is a substring of its whitespace-collapsed form (and a
prefix when the list does not start with whitespace). -/
theorem jw_fields_collapse :
    ∀ (n : Nat) (l : List Char), l.length ≤ n →
      ((∀ c, l.head? = some c → isSpaceChar c = false) →
        joinWordsCh (fieldsCh l) <+: collapseCh l) ∧
      joinWordsCh (fieldsCh l) <:+: collapseCh l
  | _, [], _ => by
    have h1 : fieldsCh [] = [] := by rw [fieldsCh]
    refine ⟨fun _ => ?_, ?_⟩ <;> simp [h1, collapseCh, joinWordsCh]
  | 0, c :: rest, h => by simp at h
  | n + 1, c :: rest, h => by
    have hrn : rest.length ≤ n := by
      simp only [List.length_cons] at h
      omega
    by_cases hsp : isSpaceChar c = true
    · constructor
      · intro hhead
        have hc := hhead c rfl
        rw [hsp] at hc
        exact absurd hc (by simp)
      · rw [collapseCh_cons_space rest c hsp, fieldsCh_cons_space hsp,
          ← fieldsCh_dropWhile rest]
        have hlen : (rest.dropWhile isSpaceChar).length ≤ n :=
          le_trans (List.dropWhile_sublist _).length_le hrn
        obtain ⟨s, hs⟩ := (jw_fields_collapse n (rest.dropWhile isSpaceChar) hlen).1
          (fun d hd => head?_dropWhile_false rest d hd)
        refine ⟨[' '], s, ?_⟩
        rw [List.append_assoc, List.cons_append, List.nil_append, hs]
    · have hsp' : isSpaceChar c = false := by simpa using hsp
      have hpre : joinWordsCh (fieldsCh (c :: rest)) <+: collapseCh (c :: rest) := by
        rw [fieldsCh_cons_nonspace hsp', collapseCh_cons_nonspace hsp']
        have htwns : ∀ d ∈ rest.takeWhile (fun d => !isSpaceChar d),
            isSpaceChar d = false := by
          intro d hd
          have := List.mem_takeWhile_imp hd
          simpa using this
        have hcol : collapseCh rest =
            rest.takeWhile (fun d => !isSpaceChar d) ++
              collapseCh (rest.dropWhile (fun d => !isSpaceChar d)) := by
          conv_lhs => rw [← List.takeWhile_append_dropWhile (p := fun d => !isSpaceChar d)
            (l := rest)]
          exact collapseCh_append_nonspace _ _ htwns
        rw [hcol]
        cases hfs : fieldsCh (rest.dropWhile (fun d => !isSpaceChar d)) with
        | nil =>
          have hjw : joinWordsCh [c :: rest.takeWhile (fun d => !isSpaceChar d)] =
              c :: rest.takeWhile (fun d => !isSpaceChar d) := rfl
          rw [hjw]
          exact ⟨collapseCh (rest.dropWhile (fun d => !isSpaceChar d)), by simp⟩
        | cons w fs' =>
          have hjw : joinWordsCh ((c :: rest.takeWhile (fun d => !isSpaceChar d)) :: w :: fs') =
              (c :: rest.takeWhile (fun d => !isSpaceChar d)) ++
                ' ' :: joinWordsCh (w :: fs') := rfl
          rw [hjw, ← hfs]
          have key : ' ' :: joinWordsCh (fieldsCh (rest.dropWhile (fun d => !isSpaceChar d))) <+:
              collapseCh (rest.dropWhile (fun d => !isSpaceChar d)) := by
            cases hdw0 : rest.dropWhile (fun d => !isSpaceChar d) with
            | nil =>
              rw [hdw0] at hfs
              simp [fieldsCh] at hfs
            | cons d dt =>
              have hd : isSpaceChar d = true := by
                have := head?_dropWhile_false (p := fun d => !isSpaceChar d) rest d
                  (by rw [hdw0]; rfl)
                simpa using this
              rw [collapseCh_cons_space dt d hd, fieldsCh_cons_space hd,
                ← fieldsCh_dropWhile dt]
              have hlen2 : (dt.dropWhile isSpaceChar).length ≤ n := by
                have h1 : (rest.dropWhile (fun d => !isSpaceChar d)).length ≤ rest.length :=
                  (List.dropWhile_sublist _).length_le
                rw [hdw0] at h1
                simp only [List.length_cons] at h1
                have h2 : (dt.dropWhile isSpaceChar).length ≤ dt.length :=
                  (List.dropWhile_sublist _).length_le
                omega
              have hp := (jw_fields_collapse n (dt.dropWhile isSpaceChar) hlen2).1
                (fun e he => head?_dropWhile_false dt e he)
              exact List.cons_prefix_cons.mpr ⟨rfl, hp⟩
          have heq : c :: (rest.takeWhile (fun d => !isSpaceChar d) ++
              collapseCh (rest.dropWhile (fun d => !isSpaceChar d))) =
              (c :: rest.takeWhile (fun d => !isSpaceChar d)) ++
                collapseCh (rest.dropWhile (fun d => !isSpaceChar d)) := by
            simp
          rw [heq]
          exact (List.prefix_append_right_inj _).mpr key
      exact ⟨fun _ => hpre, hpre.isInfix⟩

/-- Every field produced by `fieldsCh` is a non-empty run of
non-whitespace characters. -/
theorem fieldsCh_words :
    ∀ (n : Nat) (l : List Char), l.length ≤ n →
      ∀ w ∈ fieldsCh l, w ≠ [] ∧ ∀ ch ∈ w, isSpaceChar ch = false
  | _, [], _ => by
    have h1 : fieldsCh [] = [] := by rw [fieldsCh]
    rw [h1]
    intro w hw
    simp at hw
  | 0, c :: rest, h => by simp at h
  | n + 1, c :: rest, h => by
    have hrn : rest.length ≤ n := by
      simp only [List.length_cons] at h
      omega
    by_cases hsp : isSpaceChar c = true
    · rw [fieldsCh_cons_space hsp]
      exact fieldsCh_words n rest hrn
    · have hsp' : isSpaceChar c = false := by simpa using hsp
      rw [fieldsCh_cons_nonspace hsp']
      intro w hw
      rcases List.mem_cons.mp hw with rfl | hw
      · refine ⟨by simp, ?_⟩
        intro ch hch
        rcases List.mem_cons.mp hch with rfl | hch
        · exact hsp'
        · have := List.mem_takeWhile_imp hch
          simpa using this
      · have hdl : (rest.dropWhile (fun d => !isSpaceChar d)).length ≤ n :=
          le_trans (List.dropWhile_sublist _).length_le hrn
        exact fieldsCh_words n (rest.dropWhile (fun d => !isSpaceChar d)) hdl w hw

/-- A space-join of non-empty non-whitespace words starts with a
non-whitespace character. -/
theorem jw_head_nonspace :
    ∀ (W : List (List Char)), (∀ w ∈ W, w ≠ [] ∧ ∀ ch ∈ w, isSpaceChar ch = false) →
      W ≠ [] → ∃ x t, joinWordsCh W = x :: t ∧ isSpaceChar x = false
  | [], _, hne => absurd rfl hne
  | w :: ws, hW, _ => by
    obtain ⟨hne, hch⟩ := hW w (List.mem_cons_self _ _)
    obtain ⟨x, w', rfl⟩ := List.exists_cons_of_ne_nil hne
    cases ws with
    | nil => exact ⟨x, w', rfl, hch x (List.mem_cons_self _ _)⟩
    | cons w₂ ws' =>
      exact ⟨x, w' ++ ' ' :: joinWordsCh (w₂ :: ws'), rfl, hch x (List.mem_cons_self _ _)⟩

/-- Collapsing whitespace is the identity on a space-join of non-empty
non-whitespace words (such as every chunk text). -/
theorem collapse_jw_fixed :
    ∀ (W : List (List Char)), (∀ w ∈ W, w ≠ [] ∧ ∀ ch ∈ w, isSpaceChar ch = false) →
      collapseCh (joinWordsCh W) = joinWordsCh W
  | [], _ => rfl
  | [w], hW => by
    have h1 : joinWordsCh [w] = w := rfl
    rw [h1]
    have := collapseCh_append_nonspace w [] (fun ch hch => (hW w (by simp)).2 ch hch)
    simpa [collapseCh] using this
  | w :: w' :: ws, hW => by
    have h1 : joinWordsCh (w :: w' :: ws) = w ++ ' ' :: joinWordsCh (w' :: ws) := rfl
    rw [h1]
    rw [collapseCh_append_nonspace w _ (fun ch hch => (hW w (by simp)).2 ch hch)]
    obtain ⟨x, t, hxt, hx⟩ := jw_head_nonspace (w' :: ws)
      (fun v hv => hW v (List.mem_cons_of_mem _ hv)) (by simp)
    rw [hxt]
    have h2 : collapseCh (' ' :: x :: t) = ' ' :: collapseCh (x :: t) := by
      simp [collapseCh, hx]
    rw [h2, ← hxt,
      collapse_jw_fixed (w' :: ws) (fun v hv => hW v (List.mem_cons_of_mem _ hv))]

theorem fields_map_data (s : String) : (fields s).map String.data = fieldsCh s.data := by
  rw [fields, List.map_map]
  have h1 : (String.data ∘ fun w => (⟨w⟩ : String)) = id := funext fun w => rfl
  rw [h1, List.map_id]

theorem joinWords_data (ws : List String) :
    (joinWords ws).data = joinWordsCh (ws.map String.data) := rfl

/-- **C9.** For every chunk emitted by the chunker, collapsing runs of
whitespace leaves the chunk's text unchanged (it is a space-join of
whitespace-free words), and the chunk's text is a substring of its
whitespace-collapsed parent text — the full text of the page the chunk
was carved from. -/
theorem c9_parent_containment (summaries : List DocumentSummary)
    (pages : List DocumentChunk) (c : Chunk) (hc : c ∈ chunkPages summaries pages) :
    collapseWS c.text = c.text ∧ c.text.data <:+: (collapseWS c.parentText).data := by
  obtain ⟨j, hj⟩ := List.getElem?_of_mem hc
  obtain ⟨-, p, -, -, -, hparent, k, htext⟩ := chunkPages_spec summaries pages j c hj
  have hwindow : (((fields p.text).drop k).take 150).map String.data =
      ((fieldsCh p.text.data).drop k).take 150 := by
    rw [List.map_take, List.map_drop, fields_map_data]
  have htd : c.text.data =
      joinWordsCh (((fieldsCh p.text.data).drop k).take 150) := by
    rw [htext, joinWords_data, hwindow]
  have hmid : ((fieldsCh p.text.data).drop k).take 150 <:+: fieldsCh p.text.data :=
    List.IsInfix.trans (List.take_prefix _ _).isInfix (List.drop_suffix _ _).isInfix
  have hwords : ∀ w ∈ ((fieldsCh p.text.data).drop k).take 150,
      w ≠ [] ∧ ∀ ch ∈ w, isSpaceChar ch = false := by
    intro w hw
    exact fieldsCh_words p.text.data.length p.text.data le_rfl w
      (hmid.sublist.mem hw)
  constructor
  · have : collapseCh c.text.data = c.text.data := by
      rw [htd]
      exact collapse_jw_fixed _ hwords
    rw [collapseWS]
    cases hct : c.text with
    | mk data =>
      have : collapseCh data = data := by
        rw [hct] at this
        exact this
      simp [hct, this]
  · rw [hparent, collapseWS, htd]
    refine List.IsInfix.trans (jw_mid _ _ hmid) ?_
    exact (jw_fields_collapse p.text.data.length p.text.data le_rfl).2

/-- **C9 witness.** The containment applied to the single chunk of a
concrete two-word page. -/
theorem c9_parent_containment_witness :
    ∃ c ∈ chunkPages [] [⟨1, "hello world", "d.pdf"⟩],
      collapseWS c.text = c.text ∧ c.text.data <:+: (collapseWS c.parentText).data := by
  have heval : chunkPages [] [⟨1, "hello world", "d.pdf"⟩] =
      [⟨"d.pdf" ++ "_p" ++ Nat.repr 1 ++ "_c" ++ Nat.repr 0, "d.pdf", 1,
        "hello world", "hello world", "", []⟩] := by
    simp [chunkPages, chunkPagesAux, appendPageChunks, fields, fieldsCh, isSpaceChar,
      mkChunk, sectionLookup, chunkSize, chunkId, joinWords, joinWordsCh]
  have hmem : (⟨"d.pdf" ++ "_p" ++ Nat.repr 1 ++ "_c" ++ Nat.repr 0, "d.pdf", 1,
      "hello world", "hello world", "", []⟩ : Chunk) ∈
      chunkPages [] [⟨1, "hello world", "d.pdf"⟩] := by
    rw [heval]
    exact List.mem_cons_self _ _
  exact ⟨_, hmem, c9_parent_containment [] [⟨1, "hello world", "d.pdf"⟩] _ hmem⟩

/-! ## Retriever (`Retriever.Search` in retriever.go)

The vector ranking `V` (ids of the top `3·topK` chunks by descending
cosine similarity) and the lexical ranking `L` (BM25 hit ids) enter as
parameters: the fusion consumes ranks only.  Go maps are modelled as
association lists with insert-overwrite and first-match lookup; the map
iteration order of `allIDs`, together with the unstable `sort.Slice`, is
modelled by quantifying over the enumeration `order` of the candidate
set and sorting stably — both produce exactly the score-sorted
permutations. -/

/-- Go map assignment `m[k] = v` on a `string → int` map. -/
def mapInsertNat : List (String × Nat) → String → Nat → List (String × Nat)
  | [], k, v => [(k, v)]
  | (k', v') :: rest, k, v =>
    if k' = k then (k, v) :: rest else (k', v') :: mapInsertNat rest k v

/-- Go map lookup. -/
def rankLookup : List (String × Nat) → String → Option Nat
  | [], _ => none
  | (k', v) :: rest, k => if k' = k then some v else rankLookup rest k

/-- `for rank, id := range ids { m[id] = rank + 1 }` starting at `rank = r`. -/
def buildRankMapFrom : Nat → List String → List (String × Nat) → List (String × Nat)
  | _, [], m => m
  | r, id :: ids, m => buildRankMapFrom (r + 1) ids (mapInsertNat m id (r + 1))

/-- `vectorRanks` / `bm25Ranks`: chunk id ↦ 1-based rank. -/
def buildRankMap (ids : List String) : List (String × Nat) :=
  buildRankMapFrom 0 ids []

/-- Reciprocal Rank Fusion score with `k = 60`: a missing rank
contributes 0. -/
def rrfScore (vm lm : List (String × Nat)) (id : String) : ℚ :=
  (match rankLookup vm id with
   | some r => 1 / (60 + (r : ℚ))
   | none => 0) +
  (match rankLookup lm id with
   | some r => 1 / (60 + (r : ℚ))
   | none => 0)

/-- The key set `allIDs` (union of the two rank maps' key sets). -/
def candidateIDs (vm lm : List (String × Nat)) : List String :=
  vm.map Prod.fst ++ (lm.map Prod.fst).filter (fun id => !(vm.map Prod.fst).contains id)

/-- The comparison underlying `sort.Slice(fused, score[i] > score[j])`:
the sorted output is non-increasing in score. -/
def scoreGE (a b : String × ℚ) : Prop := b.2 ≤ a.2

instance : DecidableRel scoreGE := fun a b => inferInstanceAs (Decidable (b.2 ≤ a.2))

instance : IsTotal (String × ℚ) scoreGE := ⟨fun a b => le_total b.2 a.2⟩

instance : IsTrans (String × ℚ) scoreGE := ⟨fun _ _ _ h1 h2 => le_trans h2 h1⟩

/-- Steps 4–5 of `Search`: score every candidate id and sort by
descending fused score.  `order` is the Go map iteration order of
`allIDs`. -/
def fuseAndSort (vm lm : List (String × Nat)) (order : List String) : List (String × ℚ) :=
  (order.map (fun id => (id, rrfScore vm lm id))).insertionSort scoreGE

/-- `retriever.Result`. The Go field `Section` is `sectionName` here. -/
structure Result where
  chunkId : String
  document : String
  pageNumber : Nat
  text : String
  parentText : String
  sectionName : String
  score : ℚ
deriving DecidableEq, Repr

/-- Go map assignment for the `chunkMap` (`chunkMap[c.ID] = c`). -/
def chunkMapInsert : List (String × Chunk) → Chunk → List (String × Chunk)
  | [], c => [(c.id, c)]
  | (k, c') :: rest, c =>
    if k = c.id then (c.id, c) :: rest else (k, c') :: chunkMapInsert rest c

def buildChunkMap (chunks : List Chunk) : List (String × Chunk) :=
  chunks.foldl chunkMapInsert []

def chunkLookup : List (String × Chunk) → String → Option Chunk
  | [], _ => none
  | (k, c) :: rest, id => if k = id then some c else chunkLookup rest id

/-- The dedup key `fmt.Sprintf("%s_p%d", document, page)`. -/
def parentKey (doc : String) (page : Nat) : String :=
  doc ++ "_p" ++ Nat.repr page

def mkResult (c : Chunk) (score : ℚ) : Result :=
  ⟨c.id, c.document, c.pageNumber, c.text, c.parentText, c.sectionName, score⟩

/-- Step 6 of `Search`: iterate the fused list in order, stop at `topK`
accepted results, skip ids without a chunk and candidates whose
`(document, page)` parent key was already seen. -/
def dedupGo (cm : List (String × Chunk)) (topK : Nat) :
    List (String × ℚ) → List String → List Result → List Result
  | [], _, results => results
  | (id, sc) :: rest, seen, results =>
    if topK ≤ results.length then results
    else
      match chunkLookup cm id with
      | none => dedupGo cm topK rest seen results
      | some c =>
        if parentKey c.document c.pageNumber ∈ seen then dedupGo cm topK rest seen results
        else dedupGo cm topK rest (parentKey c.document c.pageNumber :: seen)
          (results ++ [mkResult c sc])

/-- The full post-embedding pipeline of `Search`: fusion, score sort and
parent-page dedup. -/
def searchResults (chunks : List Chunk) (vm lm : List (String × Nat))
    (order : List String) (topK : Nat) : List Result :=
  dedupGo (buildChunkMap chunks) topK (fuseAndSort vm lm order) [] []

theorem rankLookup_mapInsertNat :
    ∀ (m : List (String × Nat)) (k : String) (v : Nat) (id : String),
      rankLookup (mapInsertNat m k v) id = if k = id then some v else rankLookup m id
  | [], k, v, id => by
    by_cases h : k = id <;> simp [mapInsertNat, rankLookup, h]
  | (k', v') :: m, k, v, id => by
    by_cases hk : k' = k
    · subst hk
      rw [mapInsertNat, if_pos rfl]
      by_cases h : k' = id <;> simp [rankLookup, h]
    · rw [mapInsertNat, if_neg hk]
      by_cases h : k' = id
      · subst h
        have hk' : ¬ k = k' := fun he => hk he.symm
        simp [rankLookup, hk']
      · simp [rankLookup, h, rankLookup_mapInsertNat m k v id]

/-- The rank map built from a duplicate-free ranked id list assigns each
listed id its 1-based position. -/
theorem buildRankMapFrom_lookup :
    ∀ (ids : List String) (r : Nat) (m : List (String × Nat)) (id : String), ids.Nodup →
      rankLookup (buildRankMapFrom r ids m) id =
        if id ∈ ids then some (r + ids.indexOf id + 1) else rankLookup m id
  | [], r, m, id, _ => by simp [buildRankMapFrom]
  | x :: ids, r, m, id, hnd => by
    rw [buildRankMapFrom,
      buildRankMapFrom_lookup ids (r + 1) (mapInsertNat m x (r + 1)) id
        (List.nodup_cons.mp hnd).2]
    by_cases hx : id = x
    · subst hx
      have hni : id ∉ ids := (List.nodup_cons.mp hnd).1
      rw [if_neg hni, if_pos (List.mem_cons_self _ _), rankLookup_mapInsertNat,
        if_pos rfl, List.indexOf_cons_self]
    · by_cases hmem : id ∈ ids
      · rw [if_pos hmem, if_pos (List.mem_cons_of_mem _ hmem)]
        rw [List.indexOf_cons_ne _ (fun he => hx he.symm)]
        congr 1
        omega
      · rw [if_neg hmem, if_neg (by simp [hx, hmem]), rankLookup_mapInsertNat,
          if_neg (fun he => hx he.symm)]

theorem buildRankMap_lookup (ids : List String) (id : String) (hnd : ids.Nodup) :
    rankLookup (buildRankMap ids) id =
      if id ∈ ids then some (ids.indexOf id + 1) else none := by
  rw [buildRankMap, buildRankMapFrom_lookup ids 0 [] id hnd]
  simp [rankLookup]

/-- The ordering property asserted by the claim: strictly descending
score, with equal scores ordered by ascending chunk id. -/
def tieBreakOrdered (l : List (String × ℚ)) : Prop :=
  l.Chain' (fun a b => b.2 < a.2 ∨ (a.2 = b.2 ∧ a.1 < b.1))

/-- **C1 counterexample.** With vector ranking `["a"]` and lexical
ranking `["b"]`, both candidates receive the same fused score `1/61`;
the candidate enumeration `["b", "a"]` is a legal Go map iteration order
of `allIDs`, and the score-only `sort.Slice` comparator leaves `"b"`
before `"a"`, violating the claimed lexicographic tie-break. -/
theorem c1_tie_break_counterexample :
    ["b", "a"].Perm (candidateIDs (buildRankMap ["a"]) (buildRankMap ["b"])) ∧
    (fuseAndSort (buildRankMap ["a"]) (buildRankMap ["b"]) ["b", "a"]).map Prod.fst =
      ["b", "a"] ∧
    ¬ tieBreakOrdered (fuseAndSort (buildRankMap ["a"]) (buildRankMap ["b"]) ["b", "a"]) := by
  have hva : buildRankMap ["a"] = [("a", 1)] := rfl
  have hvb : buildRankMap ["b"] = [("b", 1)] := rfl
  have hsa : rrfScore [("a", 1)] [("b", 1)] "a" = 1 / 61 + 0 := by
    simp [rrfScore, rankLookup]
    norm_num
  have hsb : rrfScore [("a", 1)] [("b", 1)] "b" = 0 + 1 / 61 := by
    simp [rrfScore, rankLookup]
    norm_num
  have hfuse : fuseAndSort (buildRankMap ["a"]) (buildRankMap ["b"]) ["b", "a"] =
      [("b", 0 + 1 / 61), ("a", 1 / 61 + 0)] := by
    rw [hva, hvb, fuseAndSort]
    simp only [List.map_cons, List.map_nil, hsa, hsb]
    rw [List.insertionSort]
    rw [show List.insertionSort scoreGE [(("a" : String), (1 : ℚ) / 61 + 0)] =
      [(("a" : String), (1 : ℚ) / 61 + 0)] from rfl]
    rw [List.orderedInsert, if_pos (by norm_num [scoreGE])]
  refine ⟨?_, ?_, ?_⟩
  · rw [hva, hvb]
    have : candidateIDs [("a", 1)] [("b", 1)] = ["a", "b"] := by
      simp [candidateIDs]
    rw [this]
    exact List.Perm.swap _ _ _
  · rw [hfuse]
    rfl
  · rw [hfuse]
    intro hord
    rcases List.chain'_cons.mp hord with ⟨hpair, -⟩
    rcases hpair with hlt | ⟨-, hid⟩
    · norm_num at hlt
    · have : ¬ (("b" : String) < "a") := by
        rw [String.lt_iff_toList_lt]
        decide
      exact this hid

/-- **C1 (amended).** For a fixed vector ranking `V` and lexical ranking
`L` (duplicate-free ranked id lists), every candidate id receives the
fused score `1/(60+rank_V) + 1/(60+rank_L)` with 1-based ranks and a
missing rank contributing 0; the candidate list produced by `Search`
(for any Go map iteration order of `allIDs`) is a permutation of the
candidate set ordered by non-increasing fused score.  Ties are broken in
an unspecified order, not by lexicographic chunk id. -/
theorem c1_rrf_fusion_amended (V L : List String) (order : List String)
    (hV : V.Nodup) (hL : L.Nodup)
    (horder : order.Perm (candidateIDs (buildRankMap V) (buildRankMap L))) :
    (∀ p ∈ fuseAndSort (buildRankMap V) (buildRankMap L) order,
      p.2 = (if p.1 ∈ V then 1 / (60 + (V.indexOf p.1 + 1 : ℚ)) else 0) +
        (if p.1 ∈ L then 1 / (60 + (L.indexOf p.1 + 1 : ℚ)) else 0)) ∧
    (fuseAndSort (buildRankMap V) (buildRankMap L) order).Sorted scoreGE ∧
    ((fuseAndSort (buildRankMap V) (buildRankMap L) order).map Prod.fst).Perm
      (candidateIDs (buildRankMap V) (buildRankMap L)) := by
  refine ⟨?_, List.sorted_insertionSort scoreGE _, ?_⟩
  · intro p hp
    have hp' : p ∈ order.map (fun id => (id, rrfScore (buildRankMap V) (buildRankMap L) id)) :=
      (List.perm_insertionSort scoreGE _).mem_iff.mp hp
    obtain ⟨id, -, rfl⟩ := List.mem_map.mp hp'
    show rrfScore (buildRankMap V) (buildRankMap L) id = _
    rw [rrfScore, buildRankMap_lookup V id hV, buildRankMap_lookup L id hL]
    by_cases hv : id ∈ V <;> by_cases hl : id ∈ L <;> simp [hv, hl]
  · refine List.Perm.trans ?_ horder
    have h1 := (List.perm_insertionSort scoreGE
      (order.map (fun id => (id, rrfScore (buildRankMap V) (buildRankMap L) id)))).map Prod.fst
    rw [fuseAndSort]
    refine h1.trans ?_
    rw [List.map_map]
    have : (Prod.fst ∘ fun id =>
        (id, rrfScore (buildRankMap V) (buildRankMap L) id)) = id := rfl
    rw [this, List.map_id]

/-- **C1 (amended) witness.** The amended statement applied to the
counterexample's concrete rankings and iteration order. -/
theorem c1_rrf_fusion_amended_witness :
    (fuseAndSort (buildRankMap ["a"]) (buildRankMap ["b"]) ["b", "a"]).Sorted scoreGE :=
  (c1_rrf_fusion_amended ["a"] ["b"] ["b", "a"] (by decide) (by decide)
    (by
      have : candidateIDs (buildRankMap ["a"]) (buildRankMap ["b"]) = ["a", "b"] := by
        simp [buildRankMap, buildRankMapFrom, mapInsertNat, candidateIDs]
      rw [this]
      exact List.Perm.swap _ _ _)).2.1

/-! ## C4: parent-page dedup -/

/-- Distinct `(document, page)` pairs. -/
def distinctPair (r₁ r₂ : Result) : Prop :=
  ¬(r₁.document = r₂.document ∧ r₁.pageNumber = r₂.pageNumber)

theorem dedupGo_length (cm : List (String × Chunk)) (topK : Nat) :
    ∀ (fused : List (String × ℚ)) (seen : List String) (results : List Result),
      results.length ≤ topK → (dedupGo cm topK fused seen results).length ≤ topK
  | [], _, results, h => h
  | (id, sc) :: rest, seen, results, h => by
    rw [dedupGo]
    by_cases hfull : topK ≤ results.length
    · rw [if_pos hfull]
      exact h
    · rw [if_neg hfull]
      cases chunkLookup cm id with
      | none => exact dedupGo_length cm topK rest seen results h
      | some c =>
        dsimp only
        by_cases hseen : parentKey c.document c.pageNumber ∈ seen
        · rw [if_pos hseen]
          exact dedupGo_length cm topK rest seen results h
        · rw [if_neg hseen]
          refine dedupGo_length cm topK rest _ _ ?_
          rw [List.length_append]
          simp only [List.length_singleton]
          omega

theorem dedupGo_pairwise (cm : List (String × Chunk)) (topK : Nat) :
    ∀ (fused : List (String × ℚ)) (seen : List String) (results : List Result),
      (∀ r ∈ results, parentKey r.document r.pageNumber ∈ seen) →
      results.Pairwise distinctPair →
      (dedupGo cm topK fused seen results).Pairwise distinctPair
  | [], _, results, _, hpw => hpw
  | (id, sc) :: rest, seen, results, hseen, hpw => by
    rw [dedupGo]
    by_cases hfull : topK ≤ results.length
    · rw [if_pos hfull]
      exact hpw
    · rw [if_neg hfull]
      cases chunkLookup cm id with
      | none => exact dedupGo_pairwise cm topK rest seen results hseen hpw
      | some c =>
        dsimp only
        by_cases hsn : parentKey c.document c.pageNumber ∈ seen
        · rw [if_pos hsn]
          exact dedupGo_pairwise cm topK rest seen results hseen hpw
        · rw [if_neg hsn]
          refine dedupGo_pairwise cm topK rest _ _ ?_ ?_
          · intro r hr
            rcases List.mem_append.mp hr with hr | hr
            · exact List.mem_cons_of_mem _ (hseen r hr)
            · simp only [List.mem_singleton] at hr
              subst hr
              exact List.mem_cons_self _ _
          · rw [List.pairwise_append]
            refine ⟨hpw, List.pairwise_singleton _ _, ?_⟩
            intro r hr r' hr'
            simp only [List.mem_singleton] at hr'
            subst hr'
            intro ⟨hdoc, hpage⟩
            refine hsn ?_
            have heqk : parentKey r.document r.pageNumber =
                parentKey c.document c.pageNumber := by
              rw [hdoc, hpage]
              rfl
            rw [← heqk]
            exact hseen r hr

/-- **C4.** For every `Search` call (any chunk list, rankings, candidate
iteration order and `top_k`), the result list built by the parent-page
dedup loop has at most `top_k` elements, and all `(document, page)`
pairs among the results are pairwise distinct: the loop walks the fused
ranking in order and skips a candidate whose `(document, page)` was
already accepted. -/
theorem c4_dedup_topk (chunks : List Chunk) (vm lm : List (String × Nat))
    (order : List String) (topK : Nat) :
    (searchResults chunks vm lm order topK).length ≤ topK ∧
    (searchResults chunks vm lm order topK).Pairwise distinctPair := by
  constructor
  · exact dedupGo_length _ topK _ [] [] (by simp)
  · exact dedupGo_pairwise _ topK _ [] [] (by simp) (by simp)

/-! ## PDF extractor (`ExtractPDF` in internal/extractor/pdf.go)

The pdf library and the OCR collaborator enter as parameters: `pages`
lists, per 1-based page index, `none` for a page whose `p.V.IsNull()`
and `some s` for the `GetPlainText` output (an extraction error yields
`some ""`); `ocrResult` is what `RunOCR` would return for the file. -/

/-- `extractor.OCRConfig` (the fields `ExtractPDF` consults). -/
structure OCRConfig where
  provider : String
  sarvamKey : String
  tesseractOk : Bool
deriving DecidableEq, Repr

/-- `canRunOCR`: an explicit provider, or Tesseract availability, or a
Sarvam key. -/
def canRunOCR : Option OCRConfig → Bool
  | none => false
  | some cfg =>
    if cfg.provider ≠ "" then true
    else if cfg.tesseractOk then true
    else if cfg.sarvamKey ≠ "" then true
    else false

/-- The text the page loop works with: `IsNull` pages contribute no
text. -/
def pageText : Option String → String
  | none => ""
  | some s => s

/-- The page loop of `ExtractPDF`: pages whose trimmed text is longer
than 20 characters become text chunks; the others are recorded as empty
pages (OCR candidates). `idx` is the 1-based page index. -/
def scanPagesGo (fileName : String) : Nat → List (Option String) →
    List DocumentChunk × List Nat
  | _, [] => ([], [])
  | idx, p :: rest =>
    let r := scanPagesGo fileName (idx + 1) rest
    match p with
    | none => (r.1, idx :: r.2)
    | some s =>
      let text := trimSpace s
      if 20 < text.data.length then
        (⟨idx, text, fileName⟩ :: r.1, r.2)
      else (r.1, idx :: r.2)

/-- `ExtractPDF` after a successful `pdf.Open`. -/
def extractPDF (fileName : String) (pages : List (Option String))
    (cfg : Option OCRConfig) (ocrResult : Except String (List DocumentChunk)) :
    Except String (List DocumentChunk) :=
  let scan := scanPagesGo fileName 1 pages
  if scan.1 = [] ∧ 0 < pages.length then
    if canRunOCR cfg then ocrResult
    else .error ("no text extracted from " ++ fileName ++
      " (scanned PDF? configure OCR in Settings)")
  else if scan.2 ≠ [] ∧ canRunOCR cfg then
    match ocrResult with
    | .error _ => .ok scan.1
    | .ok ocrChunks =>
      .ok (scan.1 ++ ocrChunks.filter
        (fun oc => !(scan.1.map DocumentChunk.pageNumber).contains oc.pageNumber))
  else .ok scan.1

theorem scanPagesGo_none (f : String) (idx : Nat) (rest : List (Option String)) :
    scanPagesGo f idx (none :: rest) =
      ((scanPagesGo f (idx + 1) rest).1, idx :: (scanPagesGo f (idx + 1) rest).2) := rfl

theorem scanPagesGo_some (f : String) (idx : Nat) (s : String)
    (rest : List (Option String)) :
    scanPagesGo f idx (some s :: rest) =
      if 20 < (trimSpace s).data.length then
        (⟨idx, trimSpace s, f⟩ :: (scanPagesGo f (idx + 1) rest).1,
          (scanPagesGo f (idx + 1) rest).2)
      else ((scanPagesGo f (idx + 1) rest).1, idx :: (scanPagesGo f (idx + 1) rest).2) := rfl

theorem scanPagesGo_empties_ge (f : String) :
    ∀ (pages : List (Option String)) (idx : Nat) (e : Nat),
      e ∈ (scanPagesGo f idx pages).2 → idx ≤ e
  | [], _, _, h => by simp [scanPagesGo] at h
  | none :: rest, idx, e, h => by
    rw [scanPagesGo_none] at h
    simp only [List.mem_cons] at h
    rcases h with rfl | h
    · exact le_refl _
    · exact le_trans (by omega) (scanPagesGo_empties_ge f rest (idx + 1) e h)
  | some s :: rest, idx, e, h => by
    rw [scanPagesGo_some] at h
    by_cases ht : 20 < (trimSpace s).data.length
    · rw [if_pos ht] at h
      exact le_trans (by omega) (scanPagesGo_empties_ge f rest (idx + 1) e h)
    · rw [if_neg ht] at h
      simp only [List.mem_cons] at h
      rcases h with rfl | h
      · exact le_refl _
      · exact le_trans (by omega) (scanPagesGo_empties_ge f rest (idx + 1) e h)

theorem scanPagesGo_chunks_ge (f : String) :
    ∀ (pages : List (Option String)) (idx : Nat) (c : DocumentChunk),
      c ∈ (scanPagesGo f idx pages).1 → idx ≤ c.pageNumber
  | [], _, _, h => by simp [scanPagesGo] at h
  | none :: rest, idx, c, h => by
    rw [scanPagesGo_none] at h
    exact le_trans (by omega) (scanPagesGo_chunks_ge f rest (idx + 1) c h)
  | some s :: rest, idx, c, h => by
    rw [scanPagesGo_some] at h
    by_cases ht : 20 < (trimSpace s).data.length
    · rw [if_pos ht] at h
      simp only [List.mem_cons] at h
      rcases h with rfl | h
      · exact le_refl _
      · exact le_trans (by omega) (scanPagesGo_chunks_ge f rest (idx + 1) c h)
    · rw [if_neg ht] at h
      exact le_trans (by omega) (scanPagesGo_chunks_ge f rest (idx + 1) c h)

/-- Text-extracted chunks carry pairwise-distinct page numbers. -/
theorem scanPagesGo_chunks_nodup (f : String) :
    ∀ (pages : List (Option String)) (idx : Nat),
      ((scanPagesGo f idx pages).1.map DocumentChunk.pageNumber).Nodup
  | [], _ => by simp [scanPagesGo]
  | none :: rest, idx => by
    rw [scanPagesGo_none]
    exact scanPagesGo_chunks_nodup f rest (idx + 1)
  | some s :: rest, idx => by
    rw [scanPagesGo_some]
    by_cases ht : 20 < (trimSpace s).data.length
    · rw [if_pos ht]
      simp only [List.map_cons, List.nodup_cons]
      refine ⟨?_, scanPagesGo_chunks_nodup f rest (idx + 1)⟩
      intro hmem
      obtain ⟨c, hc, hpn⟩ := List.mem_map.mp hmem
      have := scanPagesGo_chunks_ge f rest (idx + 1) c hc
      omega
    · rw [if_neg ht]
      exact scanPagesGo_chunks_nodup f rest (idx + 1)

/-- Position `i` of the page list is recorded as an empty page (OCR
candidate) exactly when its trimmed extracted text has at most 20
characters. -/
theorem scanPagesGo_empty_iff (f : String) :
    ∀ (pages : List (Option String)) (idx i : Nat) (p : Option String),
      pages[i]? = some p →
      ((idx + i) ∈ (scanPagesGo f idx pages).2 ↔
        (trimSpace (pageText p)).data.length ≤ 20)
  | [], _, i, p, h => by simp at h
  | q :: rest, idx, 0, p, h => by
    simp only [List.getElem?_cons_zero, Option.some.injEq] at h
    subst h
    rw [Nat.add_zero]
    have hge := scanPagesGo_empties_ge f rest (idx + 1)
    match q with
    | none =>
      rw [scanPagesGo_none]
      simp only [List.mem_cons, pageText]
      constructor
      · intro _
        simp [trimSpace, trimCh]
      · intro _
        exact Or.inl trivial
    | some s =>
      rw [scanPagesGo_some]
      dsimp only [pageText]
      by_cases ht : 20 < (trimSpace s).data.length
      · rw [if_pos ht]
        constructor
        · intro hmem
          have := hge idx hmem
          omega
        · intro hle
          omega
      · rw [if_neg ht]
        constructor
        · intro _
          omega
        · intro _
          exact List.mem_cons_self _ _
  | q :: rest, idx, i + 1, p, h => by
    simp only [List.getElem?_cons_succ] at h
    have IH := scanPagesGo_empty_iff f rest (idx + 1) i p h
    have harith : idx + (i + 1) = (idx + 1) + i := by omega
    rw [harith]
    match q with
    | none =>
      rw [scanPagesGo_none]
      simp only [List.mem_cons]
      rw [← IH]
      constructor
      · rintro (he | hm)
        · omega
        · exact hm
      · exact Or.inr
    | some s =>
      rw [scanPagesGo_some]
      by_cases ht : 20 < (trimSpace s).data.length
      · rw [if_pos ht]
        exact IH
      · rw [if_neg ht]
        simp only [List.mem_cons]
        rw [← IH]
        constructor
        · rintro (he | hm)
          · omega
          · exact hm
        · exact Or.inr

theorem natContains_eq_false_iff (l : List Nat) (a : Nat) :
    l.contains a = false ↔ a ∉ l := by
  constructor
  · intro h hmem
    have hc : l.contains a = true :=
      List.contains_iff_exists_mem_beq.mpr ⟨a, hmem, by simp⟩
    rw [h] at hc
    exact Bool.noConfusion hc
  · intro h
    cases hcon : l.contains a with
    | false => rfl
    | true =>
      obtain ⟨b, hb, hab⟩ := List.contains_iff_exists_mem_beq.mp hcon
      have : a = b := by simpa using hab
      subst this
      exact absurd hb h

/-- **C5 counterexample.** For a PDF with zero pages and no OCR
capability, `ExtractPDF` returns success with an empty page list (the
`numPages > 0` guard skips the error), not the "likely scanned" failure
demanded by the claim. -/
theorem c5_zero_page_counterexample :
    extractPDF "f.pdf" [] none (.error "ocr unavailable") = .ok [] ∧
    ∀ msg, extractPDF "f.pdf" [] none (.error "ocr unavailable") ≠ .error msg := by
  constructor
  · rfl
  · intro msg h
    rw [show extractPDF "f.pdf" [] none (.error "ocr unavailable") = .ok [] from rfl] at h
    exact Except.noConfusion h

/-- **C5 (amended).** For every PDF processed by `ExtractPDF` (after a
successful open): a page counts as empty exactly when its trimmed
extracted text has at most 20 characters; if every page is empty, there
is at least one page, and OCR is available, the whole-file OCR result is
returned; if only some pages are empty and OCR is available and
succeeds, OCR pages are merged in only for page numbers not already
covered by text extraction — no page number appears twice and the
text-extracted version wins; and if there is at least one page, zero
pages are non-empty, and no OCR capability is configured, the result is
a failure whose message identifies the file as likely scanned. -/
theorem c5_extract_pdf_amended (fileName : String) (pages : List (Option String))
    (cfg : Option OCRConfig) (ocrResult : Except String (List DocumentChunk)) :
    (∀ i p, pages[i]? = some p →
      ((1 + i) ∈ (scanPagesGo fileName 1 pages).2 ↔
        (trimSpace (pageText p)).data.length ≤ 20)) ∧
    ((scanPagesGo fileName 1 pages).1 = [] → 0 < pages.length → canRunOCR cfg = true →
      extractPDF fileName pages cfg ocrResult = ocrResult) ∧
    (∀ ocrChunks, (scanPagesGo fileName 1 pages).1 ≠ [] →
      canRunOCR cfg = true → ocrResult = .ok ocrChunks →
      ((scanPagesGo fileName 1 pages).2 ≠ [] →
        extractPDF fileName pages cfg ocrResult =
          .ok ((scanPagesGo fileName 1 pages).1 ++ ocrChunks.filter
            (fun oc =>
              !((scanPagesGo fileName 1 pages).1.map DocumentChunk.pageNumber).contains
                oc.pageNumber))) ∧
      ((ocrChunks.map DocumentChunk.pageNumber).Nodup →
        ∀ out, extractPDF fileName pages cfg ocrResult = .ok out →
          (out.map DocumentChunk.pageNumber).Nodup ∧
          ∀ c ∈ out, c ∈ (scanPagesGo fileName 1 pages).1 ∨
            (c ∈ ocrChunks ∧
              c.pageNumber ∉
                (scanPagesGo fileName 1 pages).1.map DocumentChunk.pageNumber))) ∧
    ((scanPagesGo fileName 1 pages).1 = [] → 0 < pages.length → canRunOCR cfg = false →
      ∃ msg, extractPDF fileName pages cfg ocrResult = .error msg ∧
        ("scanned PDF").data <:+: msg.data) := by
  refine ⟨fun i p h => scanPagesGo_empty_iff fileName pages 1 i p h, ?_, ?_, ?_⟩
  · intro h1 h2 h3
    unfold extractPDF
    simp only [h1, h2, h3, and_self, if_true, if_pos]
  · intro ocrChunks h1 h3 hocr
    subst hocr
    have hne : ¬((scanPagesGo fileName 1 pages).1 = [] ∧ 0 < pages.length) := by
      rintro ⟨ha, -⟩
      exact h1 ha
    constructor
    · intro h2
      unfold extractPDF
      rw [if_neg hne, if_pos ⟨h2, h3⟩]
    · intro hnodup out hout
      have hform : out = (scanPagesGo fileName 1 pages).1 ∨
          out = (scanPagesGo fileName 1 pages).1 ++ ocrChunks.filter
            (fun oc =>
              !((scanPagesGo fileName 1 pages).1.map DocumentChunk.pageNumber).contains
                oc.pageNumber) := by
        unfold extractPDF at hout
        rw [if_neg hne] at hout
        by_cases h2 : (scanPagesGo fileName 1 pages).2 ≠ [] ∧ canRunOCR cfg = true
        · rw [if_pos h2] at hout
          simp only [Except.ok.injEq] at hout
          exact Or.inr hout.symm
        · rw [if_neg h2] at hout
          simp only [Except.ok.injEq] at hout
          exact Or.inl hout.symm
      have hscan_nodup := scanPagesGo_chunks_nodup fileName pages 1
      rcases hform with rfl | rfl
      · refine ⟨hscan_nodup, fun c hc => Or.inl hc⟩
      · constructor
        · rw [List.map_append, List.nodup_append]
          refine ⟨hscan_nodup, ?_, ?_⟩
          · exact List.Nodup.sublist ((List.filter_sublist _).map _) hnodup
          · intro a ha ha'
            obtain ⟨oc, hoc, rfl⟩ := List.mem_map.mp ha'
            have hpred := (List.mem_filter.mp hoc).2
            rw [Bool.not_eq_true'] at hpred
            exact (natContains_eq_false_iff _ _).mp hpred ha
        · intro c hc
          rcases List.mem_append.mp hc with hc | hc
          · exact Or.inl hc
          · obtain ⟨hmem, hpred⟩ := List.mem_filter.mp hc
            refine Or.inr ⟨hmem, ?_⟩
            rw [Bool.not_eq_true'] at hpred
            exact (natContains_eq_false_iff _ _).mp hpred
  · intro h1 h2 h3
    refine ⟨"no text extracted from " ++ fileName ++
      " (scanned PDF? configure OCR in Settings)", ?_, ?_⟩
    · unfold extractPDF
      rw [if_pos ⟨h1, h2⟩, if_neg (by rw [h3]; simp)]
    · have hsplit : (" (scanned PDF? configure OCR in Settings)" : String).data =
          (" (" : String).data ++ ("scanned PDF" : String).data ++
            ("? configure OCR in Settings)" : String).data := rfl
      have hmsg : ("no text extracted from " ++ fileName ++
          " (scanned PDF? configure OCR in Settings)" : String).data =
          ("no text extracted from " ++ fileName : String).data ++
            (" (scanned PDF? configure OCR in Settings)" : String).data := by
        rw [String.data_append]
      rw [hmsg, hsplit]
      refine ⟨("no text extracted from " ++ fileName : String).data ++ (" (" : String).data,
        ("? configure OCR in Settings)" : String).data, ?_⟩
      simp [List.append_assoc]

/-- **C5 (amended) witness.** The failure clause applied to a one-page
PDF whose only page has empty text, with no OCR configured. -/
theorem c5_extract_pdf_amended_witness :
    ∃ msg, extractPDF "f.pdf" [some ""] none (.error "x") = .error msg ∧
      ("scanned PDF").data <:+: msg.data :=
  (c5_extract_pdf_amended "f.pdf" [some ""] none (.error "x")).2.2.2
    rfl (by simp) rfl

/-! ## DOCX extractor (`ExtractDOCX`, paragraph-grouping implementation
in internal/extractor) -/

/-- `charsPerPage = 3000` in `ExtractDOCX`. -/
def charsPerPage : Nat := 3000

/-- The paragraph loop of `ExtractDOCX`: trimmed non-empty paragraphs
are grouped into pages of about `charsPerPage` characters; `buf` and
`pageNum` mirror the Go locals, `chunks` the emitted pages.  The `[]`
case is the trailing flush of the remaining buffer content. -/
def extractDOCXGo (fileName : String) :
    List String → String → Nat → List DocumentChunk → List DocumentChunk
  | [], buf, pageNum, chunks =>
    if 0 < buf.data.length then chunks ++ [⟨pageNum, trimSpace buf, fileName⟩]
    else chunks
  | para :: rest, buf, pageNum, chunks =>
    let text := trimSpace para
    if text = "" then extractDOCXGo fileName rest buf pageNum chunks
    else if 0 < buf.data.length ∧ charsPerPage < buf.data.length + text.data.length then
      extractDOCXGo fileName rest text (pageNum + 1)
        (chunks ++ [⟨pageNum, trimSpace buf, fileName⟩])
    else
      extractDOCXGo fileName rest
        (if 0 < buf.data.length then buf ++ "\n" ++ text else text) pageNum chunks

/-- `ExtractDOCX` after reading the file: if extraction produced no
page, return one empty chunk with `PageNumber = 1` (never an error). -/
def extractDOCX (fileName : String) (paragraphs : List String) : List DocumentChunk :=
  let chunks := extractDOCXGo fileName paragraphs "" 1 []
  if chunks = [] then [⟨1, "", fileName⟩] else chunks

theorem extractDOCXGo_all_empty (fileName : String) :
    ∀ (paragraphs : List String), (∀ p ∈ paragraphs, trimSpace p = "") →
      extractDOCXGo fileName paragraphs "" 1 [] = []
  | [], _ => by
    rw [extractDOCXGo]
    simp
  | para :: rest, h => by
    rw [extractDOCXGo]
    dsimp only
    rw [if_pos (h para (List.mem_cons_self _ _))]
    exact extractDOCXGo_all_empty fileName rest (fun p hp => h p (List.mem_cons_of_mem _ hp))

/-- **C10.** `ExtractDOCX` never fails merely because a document has no
extractable text: when every paragraph trims to the empty string, it
returns exactly one `DocumentChunk` with `PageNumber = 1` and empty
text, and the chunker turns that chunk into zero chunks. -/
theorem c10_docx_empty (fileName : String) (paragraphs : List String)
    (h : ∀ p ∈ paragraphs, trimSpace p = "") :
    extractDOCX fileName paragraphs = [⟨1, "", fileName⟩] ∧
    chunkPages [] (extractDOCX fileName paragraphs) = [] := by
  have h1 : extractDOCX fileName paragraphs = [⟨1, "", fileName⟩] := by
    rw [extractDOCX]
    rw [extractDOCXGo_all_empty fileName paragraphs h]
    rfl
  refine ⟨h1, ?_⟩
  rw [h1]
  simp [chunkPages, chunkPagesAux, appendPageChunks, fields, fieldsCh]

/-- **C10 witness.** The empty-document behaviour at a concrete
whitespace-only paragraph list. -/
theorem c10_docx_empty_witness :
    extractDOCX "d.docx" ["  ", ""] = [⟨1, "", "d.docx"⟩] ∧
    chunkPages [] (extractDOCX "d.docx" ["  ", ""]) = [] :=
  c10_docx_empty "d.docx" ["  ", ""] (by decide)

/-! ## Vector store persistence (`SaveVectors` / `LoadVectors` in
indexer.go)

The gob and JSON codecs are external library collaborators; they are
modelled as lossless on the serialized `vectorStore` payload, so a file
is represented by the payload it decodes to. -/

/-- The serialized `vectorStore` payload `{chunks, doc_summaries}`. -/
structure VectorStorePayload where
  chunks : List Chunk
  docSummaries : List DocumentSummary
deriving DecidableEq, Repr

/-- Decoded content of `vectors.json`: the current store schema, the
legacy bare chunk array, or an undecodable file. -/
inductive JsonVectorsFile where
  | store (s : VectorStorePayload)
  | legacy (chunks : List Chunk)
  | bad
deriving DecidableEq

/-- The on-disk pair `vectors.gob` / `vectors.json`.  `gob = none` is a
missing binary file, `some none` one the gob decoder rejects. -/
structure VectorsOnDisk where
  gob : Option (Option VectorStorePayload)
  json : Option JsonVectorsFile
deriving DecidableEq

/-- The in-memory index fields `SaveVectors`/`LoadVectors` touch. -/
structure IndexVectors where
  chunks : List Chunk
  docSummaries : List DocumentSummary
deriving DecidableEq, Repr

/-- `SaveVectors`: write the binary format and the JSON format, both
holding `{Chunks, DocSummaries}`. -/
def saveVectors (idx : IndexVectors) (_old : VectorsOnDisk) : VectorsOnDisk :=
  { gob := some (some ⟨idx.chunks, idx.docSummaries⟩)
    json := some (.store ⟨idx.chunks, idx.docSummaries⟩) }

/-- `LoadVectors`: try the binary format first; else decode the JSON
store schema (accepted only with at least one chunk); else try the
legacy bare chunk array, which for a store-shaped file fails (an object
does not decode as a chunk array) and for a legacy file sets only the
chunk list. -/
def loadVectors (idx : IndexVectors) (disk : VectorsOnDisk) :
    Except String IndexVectors :=
  match disk.gob with
  | some (some s) => .ok ⟨s.chunks, s.docSummaries⟩
  | _ =>
    match disk.json with
    | none => .error "read error"
    | some (.store s) =>
      if s.chunks ≠ [] then .ok ⟨s.chunks, s.docSummaries⟩
      else .error "unmarshal error"
    | some (.legacy cs) => .ok ⟨cs, idx.docSummaries⟩
    | some .bad => .error "unmarshal error"

/-- **C6.** `SaveVectors` followed by `LoadVectors` on a fresh index
restores the chunk list and document-summary list element-wise equal to
the state at the save (the load succeeds through the binary format),
and the load tries the binary format first, falling back to JSON when
the binary file is missing or rejected. -/
theorem c6_save_load_roundtrip (idx fresh : IndexVectors) (old : VectorsOnDisk) :
    loadVectors fresh (saveVectors idx old) = .ok ⟨idx.chunks, idx.docSummaries⟩ ∧
    (∀ (disk : VectorsOnDisk) (s : VectorStorePayload), disk.gob = some (some s) →
      loadVectors fresh disk = .ok ⟨s.chunks, s.docSummaries⟩) ∧
    (∀ (disk : VectorsOnDisk) (s : VectorStorePayload),
      (disk.gob = none ∨ disk.gob = some none) → disk.json = some (.store s) →
      s.chunks ≠ [] → loadVectors fresh disk = .ok ⟨s.chunks, s.docSummaries⟩) := by
  refine ⟨rfl, ?_, ?_⟩
  · intro disk s hgob
    rw [loadVectors, hgob]
  · intro disk s hgob hjson hne
    rcases hgob with hgob | hgob <;>
      · rw [loadVectors, hgob, hjson]
        simp [hne]

/-- **C6 witness.** The JSON fallback clause applied to a concrete disk
state with a missing binary file. -/
theorem c6_save_load_roundtrip_witness :
    loadVectors ⟨[], []⟩
      ⟨none, some (.store ⟨[⟨"i", "d", 1, "t", "pt", "", []⟩], []⟩)⟩ =
      .ok ⟨[⟨"i", "d", 1, "t", "pt", "", []⟩], []⟩ :=
  (c6_save_load_roundtrip ⟨[], []⟩ ⟨[], []⟩ ⟨none, none⟩).2.2
    ⟨none, some (.store ⟨[⟨"i", "d", 1, "t", "pt", "", []⟩], []⟩)⟩
    ⟨[⟨"i", "d", 1, "t", "pt", "", []⟩], []⟩ (Or.inl rfl) rfl (by simp)

/-! ## Ingestion termination (`runIngestion` / `handleCancelIngest` in
the server).

The concurrent run is modelled at its sequential decision points: after
the embed/summary barrier, `runIngestion` inspects the cancellation
token, the per-file results and the first embedding error, in that
order, and performs the corresponding termination actions. -/

/-- What the termination sequence of `runIngestion` does. -/
structure IngestOutcome where
  phase : String
  indexClosed : Bool
  savedVectors : Bool
  installedActive : Bool
  cachedIndex : Bool
  projectStatusSet : Option String
deriving DecidableEq, Repr

/-- The post-barrier termination logic of `runIngestion`: cancellation
wins over the no-file-succeeded error, which wins over the first
embedding error; only the successful path saves the vector store,
installs the index in the active slot, caches it and marks the project
`ready`. -/
def ingestionFinish (cancelled : Bool) (anyFileOk : Bool)
    (firstErr : Option String) : IngestOutcome :=
  if cancelled then
    { phase := "cancelled", indexClosed := true, savedVectors := false,
      installedActive := false, cachedIndex := false, projectStatusSet := none }
  else if !anyFileOk then
    { phase := "error", indexClosed := true, savedVectors := false,
      installedActive := false, cachedIndex := false, projectStatusSet := none }
  else
    match firstErr with
    | some _ =>
      { phase := "error", indexClosed := true, savedVectors := false,
        installedActive := false, cachedIndex := false, projectStatusSet := none }
    | none =>
      { phase := "done", indexClosed := false, savedVectors := true,
        installedActive := true, cachedIndex := true, projectStatusSet := some "ready" }

/-- `handleCancelIngest`: reset the project status to `upload` when it
is `processing` or `upload`. -/
def cancelStatusUpdate (st : String) : String :=
  if st = "processing" ∨ st = "upload" then "upload" else st

/-- **C7.** If the run's cancellation scope is cancelled (as observed at
the post-barrier check), `runIngestion` terminates with phase
`cancelled`, closes the Index, never calls `SaveVectors`, installs no
Index in the active slot or cache, and leaves the persisted project
record alone — while `handleCancelIngest` returns a `processing`
project's status to `upload`. -/
theorem c7_cancellation (anyFileOk : Bool) (firstErr : Option String) :
    (ingestionFinish true anyFileOk firstErr).phase = "cancelled" ∧
    (ingestionFinish true anyFileOk firstErr).indexClosed = true ∧
    (ingestionFinish true anyFileOk firstErr).savedVectors = false ∧
    (ingestionFinish true anyFileOk firstErr).installedActive = false ∧
    (ingestionFinish true anyFileOk firstErr).cachedIndex = false ∧
    cancelStatusUpdate "processing" = "upload" := by
  refine ⟨?_, ?_, ?_, ?_, ?_, ?_⟩ <;> simp [ingestionFinish, cancelStatusUpdate]

/-! ## Index LRU cache (`lruCache` in cmd/server/handlers_conv.go)

`entries` is the recency list, front = most recently used (the Go
`order` list; the `items` map is the derived key index).  `α` stands
for the cached `*cachedIndex` values. -/

structure LruCache (α : Type) where
  maxSize : Nat
  entries : List (String × α)

/-- `newLRUCache`. -/
def newLRUCache (α : Type) (maxSize : Nat) : LruCache α := ⟨maxSize, []⟩

/-- `get`: return the cached value and promote its entry to the front
(most recently used). -/
def lruGet (c : LruCache α) (k : String) : Option α × LruCache α :=
  match c.entries.find? (fun e => e.1 == k) with
  | some e => (some e.2, ⟨c.maxSize, e :: c.entries.eraseP (fun e' => e'.1 == k)⟩)
  | none => (none, c)

/-- `put`: update-and-promote an existing key; otherwise insert at the
front, evicting the back (least recently used) entry when at
capacity. -/
def lruPut (c : LruCache α) (k : String) (v : α) : LruCache α :=
  match c.entries.find? (fun e => e.1 == k) with
  | some _ => ⟨c.maxSize, (k, v) :: c.entries.eraseP (fun e => e.1 == k)⟩
  | none =>
    ⟨c.maxSize, (k, v) ::
      (if c.maxSize ≤ c.entries.length then c.entries.dropLast else c.entries)⟩

/-- `has`: non-promoting membership. -/
def lruHas (c : LruCache α) (k : String) : Bool :=
  (c.entries.find? (fun e => e.1 == k)).isSome

/-- `delete`. -/
def lruDelete (c : LruCache α) (k : String) : LruCache α :=
  ⟨c.maxSize, c.entries.eraseP (fun e => e.1 == k)⟩

theorem find?_entry_eq_none {α : Type} (entries : List (String × α)) (k : String)
    (h : ∀ e ∈ entries, e.1 ≠ k) : entries.find? (fun e => e.1 == k) = none := by
  rw [List.find?_eq_none]
  intro e he
  simp [h e he]

theorem find?_entry_of_mem_nodup {α : Type} :
    ∀ (entries : List (String × α)) (k : String) (v : α),
      (entries.map Prod.fst).Nodup → (k, v) ∈ entries →
      entries.find? (fun e => e.1 == k) = some (k, v)
  | [], k, v, _, hmem => by simp at hmem
  | (k', v') :: rest, k, v, hnd, hmem => by
    simp only [List.map_cons, List.nodup_cons] at hnd
    rcases List.mem_cons.mp hmem with heq | hmem'
    · rw [← heq]
      rw [List.find?_cons_of_pos _ (by simp)]
    · have hne : k' ≠ k := by
        intro he
        subst he
        exact hnd.1 (List.mem_map.mpr ⟨(k', v), hmem', rfl⟩)
      rw [List.find?_cons_of_neg _ (by simp [hne])]
      exact find?_entry_of_mem_nodup rest k v hnd.2 hmem'

/-- **C8.** The index cache is an LRU cache with capacity 5: from an
empty cache, after `put`s of 6 distinct keys with no intervening `get`,
the first-inserted key is absent and the 5 most recently inserted keys
are present; a `get` of a present key returns its cached value and
promotes that key to the front of the recency list (most recently
used), and a capacity eviction always removes the entry at the back of
that list — so a freshly promoted key is the last of the currently
cached keys to be evicted. -/
theorem c8_lru_cache (α : Type) (k₁ k₂ k₃ k₄ k₅ k₆ : String)
    (v₁ v₂ v₃ v₄ v₅ v₆ : α)
    (hnd : ([k₁, k₂, k₃, k₄, k₅, k₆] : List String).Nodup) :
    (lruHas (lruPut (lruPut (lruPut (lruPut (lruPut (lruPut (newLRUCache α 5)
      k₁ v₁) k₂ v₂) k₃ v₃) k₄ v₄) k₅ v₅) k₆ v₆) k₁ = false ∧
     ∀ k ∈ [k₂, k₃, k₄, k₅, k₆],
      lruHas (lruPut (lruPut (lruPut (lruPut (lruPut (lruPut (newLRUCache α 5)
        k₁ v₁) k₂ v₂) k₃ v₃) k₄ v₄) k₅ v₅) k₆ v₆) k = true) ∧
    (∀ (c : LruCache α) (k : String) (v : α),
      (c.entries.map Prod.fst).Nodup → (k, v) ∈ c.entries →
      (lruGet c k).1 = some v ∧ (lruGet c k).2.entries.head? = some (k, v)) ∧
    (∀ (c : LruCache α) (k : String) (v : α),
      (∀ e ∈ c.entries, e.1 ≠ k) → c.maxSize ≤ c.entries.length →
      (lruPut c k v).entries = (k, v) :: c.entries.dropLast) := by
  obtain ⟨n1, n2, n3, n4, n5, -⟩ :
      (k₁ ≠ k₂ ∧ k₁ ≠ k₃ ∧ k₁ ≠ k₄ ∧ k₁ ≠ k₅ ∧ k₁ ≠ k₆) ∧
      (k₂ ≠ k₃ ∧ k₂ ≠ k₄ ∧ k₂ ≠ k₅ ∧ k₂ ≠ k₆) ∧
      (k₃ ≠ k₄ ∧ k₃ ≠ k₅ ∧ k₃ ≠ k₆) ∧
      (k₄ ≠ k₅ ∧ k₄ ≠ k₆) ∧
      (k₅ ≠ k₆) ∧ True := by
    simp only [List.nodup_cons, List.mem_cons, List.not_mem_nil, List.mem_singleton,
      not_or, List.nodup_nil, and_true, or_false] at hnd
    exact ⟨⟨hnd.1.1, hnd.1.2.1, hnd.1.2.2.1, hnd.1.2.2.2⟩,
      ⟨hnd.2.1.1, hnd.2.1.2.1, hnd.2.1.2.2⟩,
      ⟨hnd.2.2.1.1, hnd.2.2.1.2⟩,
      ⟨hnd.2.2.2.1.1, hnd.2.2.2.1.2⟩,
      hnd.2.2.2.2.1, trivial⟩
  have b12 : (k₁ == k₂) = false := beq_eq_false_iff_ne.mpr n1.1
  have b13 : (k₁ == k₃) = false := beq_eq_false_iff_ne.mpr n1.2.1
  have b14 : (k₁ == k₄) = false := beq_eq_false_iff_ne.mpr n1.2.2.1
  have b15 : (k₁ == k₅) = false := beq_eq_false_iff_ne.mpr n1.2.2.2.1
  have b16 : (k₁ == k₆) = false := beq_eq_false_iff_ne.mpr n1.2.2.2.2
  have b21 : (k₂ == k₁) = false := beq_eq_false_iff_ne.mpr (Ne.symm n1.1)
  have b23 : (k₂ == k₃) = false := beq_eq_false_iff_ne.mpr n2.1
  have b24 : (k₂ == k₄) = false := beq_eq_false_iff_ne.mpr n2.2.1
  have b25 : (k₂ == k₅) = false := beq_eq_false_iff_ne.mpr n2.2.2.1
  have b26 : (k₂ == k₆) = false := beq_eq_false_iff_ne.mpr n2.2.2.2
  have b31 : (k₃ == k₁) = false := beq_eq_false_iff_ne.mpr (Ne.symm n1.2.1)
  have b32 : (k₃ == k₂) = false := beq_eq_false_iff_ne.mpr (Ne.symm n2.1)
  have b34 : (k₃ == k₄) = false := beq_eq_false_iff_ne.mpr n3.1
  have b35 : (k₃ == k₅) = false := beq_eq_false_iff_ne.mpr n3.2.1
  have b36 : (k₃ == k₆) = false := beq_eq_false_iff_ne.mpr n3.2.2
  have b41 : (k₄ == k₁) = false := beq_eq_false_iff_ne.mpr (Ne.symm n1.2.2.1)
  have b42 : (k₄ == k₂) = false := beq_eq_false_iff_ne.mpr (Ne.symm n2.2.1)
  have b43 : (k₄ == k₃) = false := beq_eq_false_iff_ne.mpr (Ne.symm n3.1)
  have b45 : (k₄ == k₅) = false := beq_eq_false_iff_ne.mpr n4.1
  have b46 : (k₄ == k₆) = false := beq_eq_false_iff_ne.mpr n4.2
  have b51 : (k₅ == k₁) = false := beq_eq_false_iff_ne.mpr (Ne.symm n1.2.2.2.1)
  have b52 : (k₅ == k₂) = false := beq_eq_false_iff_ne.mpr (Ne.symm n2.2.2.1)
  have b53 : (k₅ == k₃) = false := beq_eq_false_iff_ne.mpr (Ne.symm n3.2.1)
  have b54 : (k₅ == k₄) = false := beq_eq_false_iff_ne.mpr (Ne.symm n4.1)
  have b56 : (k₅ == k₆) = false := beq_eq_false_iff_ne.mpr n5
  have b61 : (k₆ == k₁) = false := beq_eq_false_iff_ne.mpr (Ne.symm n1.2.2.2.2)
  have b62 : (k₆ == k₂) = false := beq_eq_false_iff_ne.mpr (Ne.symm n2.2.2.2)
  have b63 : (k₆ == k₃) = false := beq_eq_false_iff_ne.mpr (Ne.symm n3.2.2)
  have b64 : (k₆ == k₄) = false := beq_eq_false_iff_ne.mpr (Ne.symm n4.2)
  have b65 : (k₆ == k₅) = false := beq_eq_false_iff_ne.mpr (Ne.symm n5)
  refine ⟨⟨?_, ?_⟩, ?_, ?_⟩
  · simp [lruPut, lruHas, newLRUCache, List.find?, List.dropLast, b12, b13, b14, b15, b16, b21, b23, b24, b25, b26, b31, b32, b34, b35, b36, b41, b42, b43, b45, b46, b51, b52, b53, b54, b56, b61, b62, b63, b64, b65]
  · intro k hk
    fin_cases hk <;>
      simp [lruPut, lruHas, newLRUCache, List.find?, List.dropLast, b12, b13, b14, b15, b16, b21, b23, b24, b25, b26, b31, b32, b34, b35, b36, b41, b42, b43, b45, b46, b51, b52, b53, b54, b56, b61, b62, b63, b64, b65]
  · intro c k v hndc hmem
    rw [lruGet, find?_entry_of_mem_nodup c.entries k v hndc hmem]
    exact ⟨rfl, rfl⟩
  · intro c k v hfresh hfull
    rw [lruPut, find?_entry_eq_none c.entries k hfresh]
    simp [hfull]

theorem c8_lru_cache_witness :
    (["k1", "k2", "k3", "k4", "k5", "k6"] : List String).Nodup ∧
    (lruHas (lruPut (lruPut (lruPut (lruPut (lruPut (lruPut (newLRUCache Nat 5)
        "k1" 1) "k2" 2) "k3" 3) "k4" 4) "k5" 5) "k6" 6) "k1" = false ∧
      ∀ k ∈ (["k2", "k3", "k4", "k5", "k6"] : List String),
        lruHas (lruPut (lruPut (lruPut (lruPut (lruPut (lruPut (newLRUCache Nat 5)
          "k1" 1) "k2" 2) "k3" 3) "k4" 4) "k5" 5) "k6" 6) k = true) :=
  ⟨by decide,
   (c8_lru_cache Nat "k1" "k2" "k3" "k4" "k5" "k6" 1 2 3 4 5 6 (by decide)).1⟩

end GoCogni
